import Mathlib

/-!
Verification development for the icao-9303 cryptographic core.

This file gives a shallow embedding, in Lean, of the arithmetic, group,
codec and protocol layers of the crate (`src/crypto/...`), and proves or
refutes the specification claims about them.

Conventions of the embedding:
* Machine integers (`ruint::Uint<BITS, LIMBS>`) are modelled as `Nat`
  together with explicit width parameters.  `bits` stands for the declared
  `BITS` of the type; `w` stands for `64 * LIMBS`, the exponent of the
  Montgomery radix `R = 2^w` used by `ruint`'s REDC routines.
* Montgomery multiplication (`ruint::Uint::mul_redc`, an external crate
  routine) is modelled by the REDC algorithm itself, with the word inverse
  computed by Newton iteration, so every definition is executable.
* Panics (`unwrap`, `assert!`, `unimplemented!`, non-termination) are
  modelled as `none` of an outer `Option`; `anyhow` error results are
  modelled as `Except String`.
* The recursion between point addition, `from_affine`'s subgroup check and
  scalar multiplication (which is unbounded in the source when the cofactor
  is not 1) is made total with an explicit `fuel` argument; exhausting fuel
  is modelled as divergence (`none`).
-/

set_option maxRecDepth 100000

instance {ε α : Type} [DecidableEq ε] [DecidableEq α] : DecidableEq (Except ε α) := fun a b =>
  match a, b with
  | Except.ok x, Except.ok y =>
    if h : x = y then isTrue (by rw [h]) else isFalse (fun hh => by cases hh; exact h rfl)
  | Except.error x, Except.error y =>
    if h : x = y then isTrue (by rw [h]) else isFalse (fun hh => by cases hh; exact h rfl)
  | Except.ok _, Except.error _ => isFalse (fun hh => by cases hh)
  | Except.error _, Except.ok _ => isFalse (fun hh => by cases hh)

/-! ## Basic byte and bit helpers -/

/-- Big-endian byte representation of `v` in exactly `len` bytes,
truncating high bits (the sources only apply this to values that fit). -/
def be_bytes : Nat → Nat → List Nat
  | 0, _ => []
  | l + 1, v => be_bytes l (v / 256) ++ [v % 256]

/-- Value of a big-endian byte list (`Uint::try_from_be_slice`). -/
def val_be (l : List Nat) : Nat := l.foldl (fun acc b => 256 * acc + b) 0

/-- Bit length of a value, with structural fuel so that the kernel can
evaluate it (`ruint::Uint::bit_len`). -/
def bit_len_fuel : Nat → Nat → Nat
  | 0, _ => 0
  | f + 1, n => if n = 0 then 0 else bit_len_fuel f (n / 2) + 1

/-- Bit length of a value (`ruint::Uint::bit_len`): position of the highest
set bit, 0 for 0. -/
def bit_len (n : Nat) : Nat := bit_len_fuel n n

/-- Byte length of a value (`ruint::Uint::byte_len`). -/
def byte_len (n : Nat) : Nat := (bit_len n + 7) / 8

/-! ## Montgomery arithmetic (semantic model of the `ruint` backend)

`ModRing::from_modulus` derives the Montgomery constants; `mul_redc` is
Montgomery multiplication with radix `R = 2^w`.  We model `mul_redc` by the
REDC algorithm with the word inverse obtained by Newton iteration, which is
both faithful to what the external crate computes and executable. -/

/-- One Newton step for inverting an odd `p` modulo `2^w`:
`x ↦ x * (2 - p * x) mod 2^w`. -/
def inv2k_step (w p x : Nat) : Nat :=
  (x * (2 + 2 ^ w - p * x % 2 ^ w)) % 2 ^ w

/-- Iterated Newton steps. -/
def inv2k_iter (w p : Nat) : Nat → Nat
  | 0 => 1 % 2 ^ w
  | i + 1 => inv2k_step w p (inv2k_iter w p i)

/-- Inverse of an odd `p` modulo `2^w` (`U64::inv_ring` semantics). -/
def inv2k (w p : Nat) : Nat := inv2k_iter w p w

/-- `-p⁻¹ mod 2^w`: the precomputed `mod_inv` constant of `ModRing`
(`parameters_from_modulus`). -/
def neg_mod_inv (w p : Nat) : Nat := (2 ^ w - inv2k w p) % 2 ^ w

/-- Montgomery multiplication `mul_redc(a, b, p, p_inv)`: REDC of `a * b`
with radix `2^w`, with the final conditional subtraction. -/
def mul_redc (w p a b : Nat) : Nat :=
  let t := a * b
  let m := t * neg_mod_inv w p % 2 ^ w
  let t2 := (t + m * p) / 2 ^ w
  if p ≤ t2 then t2 - p else t2

/-- `square_redc(a, p, p_inv)` (the sources treat it as an optimisation of
`mul_redc(a, a, ..)`). -/
def square_redc (w p a : Nat) : Nat := mul_redc w p a a

/-- `add_mod(a, b, p)`: overflowing add, conditional subtract, exactly as in
`uint_mont.rs` (wrap-around at `2^w`). -/
def add_mod (w p a b : Nat) : Nat :=
  let sum := (a + b) % 2 ^ w
  let carry := 2 ^ w ≤ a + b
  let reduced := (sum + 2 ^ w - p) % 2 ^ w
  let borrow := sum < p
  if carry ∨ ¬borrow then reduced else sum

/-- `sub_mod(a, b, p)`: wrapping subtract, conditional add-back, exactly as
in `uint_mont.rs`. -/
def sub_mod (w p a b : Nat) : Nat :=
  if a < b then (a + 2 ^ w - b + p) % 2 ^ w else a - b

/-- Montgomery radix reduced: `R mod p` — the `montgomery_r` ring constant
(i.e. 1 in Montgomery form, `ModRing::one`). -/
def mont_r (w p : Nat) : Nat := 2 ^ w % p

/-- `R² mod p` — the `montgomery_r2` ring constant (computed by
`parameters_from_modulus` via two `mul_mod` squarings of `2^(w/2)`). -/
def mont_r2 (w p : Nat) : Nat := 2 ^ (2 * w) % p

/-- `R³ mod p` — the `montgomery_r3` ring constant (computed by
`ModRing::from_parameters` as `square_redc(montgomery_r2)`). -/
def mont_r3 (w p : Nat) : Nat := 2 ^ (3 * w) % p

/-- `RingRefExt::from`: convert a value into Montgomery form via
`mont_mul(value, montgomery_r2)`.  The source `assert!(value < modulus)`
is modelled by the `Option` (`none` is the panic). -/
def from_uint (w p v : Nat) : Option Nat :=
  if v < p then some (mul_redc w p v (mont_r2 w p)) else none

/-- `RingRefExt::from_u64`. -/
def from_u64 (w p v : Nat) : Option Nat := from_uint w p v

/-- `ModRingElement::to_uint`: `mont_mul(value, 1)`. -/
def to_uint (w p a : Nat) : Nat := mul_redc w p a 1

/-- Extended Euclid with structural fuel: `egcd_fuel f a b = (x, y, g)`
with `x * a + y * b = g = gcd a b` whenever `f` is large enough. -/
def egcd_fuel : Nat → Nat → Nat → Int × Int × Nat
  | 0, a, _ => (1, 0, a)
  | f + 1, a, b =>
    if b = 0 then (1, 0, a)
    else
      let q := a / b
      let r := egcd_fuel f b (a % b)
      (r.2.1, r.1 - q * r.2.1, r.2.2)

/-- `ruint::Uint::inv_mod(a, p)`: modular inverse, `None` when not
invertible (external crate routine, modelled by its contract via the
extended Euclidean algorithm). -/
def inv_mod (a p : Nat) : Option Nat :=
  let r := egcd_fuel (a + p + 1) a p
  if r.2.2 = 1 then some ((r.1 % (p : Int)).toNat) else none

/-- `ModRingElement::inv`: `inv_mod` on the Montgomery value, then
`mont_mul` with `montgomery_r3`. -/
def elem_inv (w p a : Nat) : Option Nat :=
  (inv_mod a p).map fun v => mul_redc w p v (mont_r3 w p)

/-- `ModRingElement::div`: `other.inv().map(|inv| self * inv)`. -/
def elem_div (w p a b : Nat) : Option Nat :=
  (elem_inv w p b).map fun i => mul_redc w p a i

/-- `ModRingElement::pow` (small variable-time exponentiation), with the
recursion made structural by a fuel argument equal to the exponent. -/
def elem_pow_fuel (w p a : Nat) : Nat → Nat → Nat
  | 0, _ => mont_r w p
  | _ + 1, 0 => mont_r w p
  | _ + 1, 1 => a
  | f + 1, n + 2 =>
    if (n + 2) % 2 = 0 then square_redc w p (elem_pow_fuel w p a f ((n + 2) / 2))
    else mul_redc w p a (square_redc w p (elem_pow_fuel w p a f ((n + 2) / 2)))

/-- `ModRingElement::pow`. -/
def elem_pow (w p a n : Nat) : Nat := elem_pow_fuel w p a n n

/-- The square-and-multiply state after `k` iterations: `(result, power)`.
This is the loop shared by `uint_mont.rs::pow` (which runs for the value's
bit length) and `ModRingElement::pow_ct` (which runs for the declared bit
width of the exponent type). -/
def mont_pow_loop (w p base e : Nat) : Nat → Nat × Nat
  | 0 => (mont_r w p, base)
  | k + 1 =>
    let st := mont_pow_loop w p base e k
    (if e.testBit k then mul_redc w p st.1 st.2 else st.1,
     mul_redc w p st.2 st.2)

/-- `uint_mont.rs::pow`: Montgomery exponentiation running for the value
bit length of the exponent (`ruint`'s inherent `bit_len`). -/
def pow_uint (w p base e : Nat) : Nat := (mont_pow_loop w p base e (bit_len e)).1

/-- `ModRingElement::pow_ct`: Montgomery exponentiation running for
`iters` iterations.  Modelled from the spec: the `UintExp` implementation
for `ruint::Uint` is not among the sources; per the spec `pow_ct` "always
runs for `bit_len(uint_exp)` iterations — deliberately leaks only the
declared bit width of the exponent type", so `iters` is the declared bit
width of the exponent's type. -/
def pow_ct (w p base e iters : Nat) : Nat := (mont_pow_loop w p base e iters).1

/-- `uint_mont.rs::sqrt_mont(self, modulus, mont_r, mod_inv)`.
The outer `Option` models the panics; the inner one is the source's
return value.  The dispatch is `modulus.to::<u64>() & 3`: ruint's `to` is
the panicking conversion, so every modulus of 2^64 or more panics before
any arm is reached; below 2^64 the masked value is `p % 4`, matched
against the mod-8 residues `3 | 7` and `5` (whose 5 and 7 cases are
unreachable), with `unimplemented!` otherwise. -/
def sqrt_mont (w a p r : Nat) : Option (Option Nat) :=
  if 2 ^ 64 ≤ p then none
  else if p % 4 = 3 ∨ p % 4 = 7 then
    let e := p / 4 + 1
    let cand := pow_uint w p a e
    some (if square_redc w p cand = a then some cand else none)
  else if p % 4 = 5 then
    let e := p / 8 + 1
    let cand := pow_uint w p a e
    if square_redc w p cand = a then some (some cand)
    else
      let e2 := p / 4
      let two := add_mod w p r r
      let factor := pow_uint w p two e2
      let cand2 := mul_redc w p cand factor
      some (if square_redc w p cand2 = a then some cand2 else none)
  else none

/-- `uint_mont.rs::random(rng, max)`: draw a full-width value, shift out the
leading zeros of `max`, accept if `≤ max`.  The RNG is modelled as the list
of its successive `bits`-wide draws; an exhausted list models a
never-returning loop. -/
def random_uint (bits max : Nat) : List Nat → Option Nat
  | [] => none
  | v :: rest =>
    let value := v >>> (bits - bit_len max)
    if value ≤ max then some value else random_uint bits max rest

/-- `RingRefExt::random`: `from_montgomery(Uint::random(rng, modulus))`.
In release builds `from_montgomery` performs no check (its
`debug_assert!(value < modulus)` is compiled out), so the drawn value is
stored as the element's Montgomery value unchanged. -/
def ring_random (bits p : Nat) (draws : List Nat) : Option Nat :=
  random_uint bits p draws

/-! ## Elliptic curves (`groups/elliptic_curve.rs`)

A curve stores its field moduli and the Montgomery forms of its
parameters, exactly like the Rust `EllipticCurve` struct.  `bits` is the
declared `BITS` of the backing `Uint` type, `w = 64 * LIMBS` the Montgomery
radix exponent. -/

structure Curve where
  bits : Nat
  w : Nat
  p : Nat
  n : Nat
  a_monty : Nat
  b_monty : Nat
  cofactor : Nat
  gx_monty : Nat
  gy_monty : Nat
  deriving Repr, DecidableEq

/-- `EllipticCurvePoint`: infinity or affine with Montgomery coordinates. -/
inductive Pt where
  | inf : Pt
  | aff (x y : Nat) : Pt
  deriving Repr, DecidableEq

/-- `EllipticCurve::generator`. -/
def generator (c : Curve) : Pt := Pt.aff c.gx_monty c.gy_monty

/-- `EllipticCurvePoint::neg`: `(x, y) ↦ (x, 0 - y)` via `sub_mod`. -/
def neg_pt (c : Curve) : Pt → Pt
  | Pt.inf => Pt.inf
  | Pt.aff x y => Pt.aff x (sub_mod c.w c.p 0 y)

/-- The curve-equation check `y.pow(2) == x.pow(3) + a * x + b` used by
`ensure_valid` and by `EllipticCurve::new` (on Montgomery forms). -/
def on_curve_eq (c : Curve) (x y : Nat) : Bool :=
  elem_pow c.w c.p y 2 =
    add_mod c.w c.p
      (add_mod c.w c.p (elem_pow c.w c.p x 3) (mul_redc c.w c.p c.a_monty x))
      c.b_monty

/-- The double-and-conditional-add loop of `mul_uint`, abstracted over the
point addition (which is recursive through the subgroup check); returns the
`(result, self)` pair after `i` iterations.  Note `result + self` is
computed in every iteration (its panic propagates even when the scalar bit
is 0), as in the source `conditional_assign(&(result + self), bit)`. -/
def mul_uint_with (add : Pt → Pt → Option Pt) (pt : Pt) (k : Nat) :
    Nat → Option (Pt × Pt)
  | 0 => some (Pt.inf, pt)
  | i + 1 => do
    let st ← mul_uint_with add pt k i
    let sum ← add st.1 st.2
    let dbl ← add st.2 st.2
    pure (if k.testBit i then sum else st.1, dbl)

/-- `EllipticCurvePoint::add`, with `fuel` bounding the recursion through
`from_affine`'s subgroup check (the source recursion is unbounded when the
cofactor is not 1).  `none` models a panic (`unwrap` of a failed division
or of a failed `from_affine`) or exhausted fuel. -/
def pt_add_fuel (c : Curve) : Nat → Pt → Pt → Option Pt
  | 0, _, _ => none
  | _ + 1, Pt.inf, q => some q
  | _ + 1, p, Pt.inf => some p
  | f + 1, Pt.aff x1 y1, Pt.aff x2 y2 =>
    if x1 = x2 then
      if y1 = y2 then do
        -- Point doubling: λ = (3 x₁² + a) / (2 y₁)
        let c3 ← from_u64 c.w c.p 3
        let c2 ← from_u64 c.w c.p 2
        let num := add_mod c.w c.p (mul_redc c.w c.p c3 (elem_pow c.w c.p x1 2)) c.a_monty
        let den := mul_redc c.w c.p c2 y1
        let lam ← elem_div c.w c.p num den
        let x3 := sub_mod c.w c.p (elem_pow c.w c.p lam 2) (mul_redc c.w c.p c2 x1)
        let y3 := sub_mod c.w c.p (mul_redc c.w c.p lam (sub_mod c.w c.p x1 x3)) y1
        pure (Pt.aff x3 y3)
      else
        -- x₁ = x₂, y₁ ≠ y₂: point at infinity
        some Pt.inf
    else do
      let lam ← elem_div c.w c.p (sub_mod c.w c.p y2 y1) (sub_mod c.w c.p x2 x1)
      let x3 := sub_mod c.w c.p (sub_mod c.w c.p (elem_pow c.w c.p lam 2) x1) x2
      let y3 := sub_mod c.w c.p (mul_redc c.w c.p lam (sub_mod c.w c.p x1 x3)) y1
      -- `self.curve.from_affine(x3, y3).unwrap()` (inlined; the recursion
      -- through the cofactor ≠ 1 subgroup check consumes fuel)
      if on_curve_eq c x3 y3 then
        if c.cofactor = 1 then pure (Pt.aff x3 y3)
        else do
          let st ← mul_uint_with (pt_add_fuel c f) (Pt.aff x3 y3) c.n c.bits
          if st.1 = Pt.inf then pure (Pt.aff x3 y3) else none
      else none

/-- `EllipticCurvePoint::add` at a given fuel. -/
def pt_add (c : Curve) (fuel : Nat) (p q : Pt) : Option Pt := pt_add_fuel c fuel p q

/-- `EllipticCurvePoint::mul_uint(scalar)`: the scalar ladder.  Modelled
from the spec for the iteration count: the `UintExp` implementation for
`ruint::Uint` is not among the sources, and the spec says the loop length
is the declared bit width of the scalar's type, here `c.bits`. -/
def mul_uint (c : Curve) (fuel : Nat) (pt : Pt) (k : Nat) : Option Pt :=
  (mul_uint_with (pt_add_fuel c fuel) pt k c.bits).map (·.1)

/-- `EllipticCurve::from_affine` / `ensure_valid`: curve-equation check,
plus the subgroup check when the cofactor is not 1.  The outer `Option`
models panics inside the subgroup check's scalar ladder. -/
def from_affine (c : Curve) (fuel : Nat) (x y : Nat) : Option (Except String Pt) :=
  if on_curve_eq c x y then
    if c.cofactor = 1 then some (Except.ok (Pt.aff x y))
    else
      match mul_uint c fuel (Pt.aff x y) c.n with
      | none => none
      | some r =>
        if r = Pt.inf then some (Except.ok (Pt.aff x y))
        else some (Except.error "Point not in subgroup.")
  else some (Except.error "Point not on curve.")

/-- Modelled from the spec: the element-level `sqrt` method
(`ModRingElement::sqrt`, applied here to a base-field element) is not
among the sources — only its caller `from_x` and the backend `sqrt_mont`
are; per the spec it "delegates to `sqrt_mont`", passing the ring's
Montgomery constants. -/
def elem_sqrt (c : Curve) (a : Nat) : Option (Option Nat) :=
  sqrt_mont c.w a c.p (mont_r c.w c.p)

/-- `EllipticCurve::from_x`: solve `y² = x³ + ax + b`.  Outer `Option` is
panic (from `sqrt_mont`'s `unimplemented!`), inner is the source's
`Option`. -/
def from_x (c : Curve) (x : Nat) : Option (Option Pt) :=
  let y2 := add_mod c.w c.p
    (add_mod c.w c.p (elem_pow c.w c.p x 3) (mul_redc c.w c.p c.a_monty x))
    c.b_monty
  match elem_sqrt c y2 with
  | none => none
  | some none => some none
  | some (some y) => some (some (Pt.aff x y))

/-- `EllipticCurve::new`: the construction checks, in source order.
`none` models a panic (`from_modulus` on an even modulus, `from_u64`'s
assert, or a panic inside the generator-order ladder); `Except.error` the
`ensure!` failures. -/
def curve_new (bits w fuel : Nat) (modulus a b x y order cofactor : Nat) :
    Option (Except String Curve) :=
  if ¬ a < modulus then some (Except.error "a not in field")
  else if ¬ b < modulus then some (Except.error "b not in field")
  else if ¬ x < modulus then some (Except.error "x not in field")
  else if ¬ y < modulus then some (Except.error "y not in field")
  else if modulus % 2 = 0 then none  -- `from_modulus` panics on an even modulus
  else if order % 2 = 0 then none
  else
    -- the four `from` conversions cannot panic: the range was just ensured
    let aM := mul_redc w modulus a (mont_r2 w modulus)
    let bM := mul_redc w modulus b (mont_r2 w modulus)
    let xM := mul_redc w modulus x (mont_r2 w modulus)
    let yM := mul_redc w modulus y (mont_r2 w modulus)
    match from_u64 w modulus 4, from_u64 w modulus 27 with
    | some c4, some c27 =>
      if add_mod w modulus (mul_redc w modulus c4 (elem_pow w modulus aM 3))
          (mul_redc w modulus c27 (elem_pow w modulus bM 2)) = 0 then
        some (Except.error "Singular curve")
      else if modulus = order then some (Except.error "Anomalous curve")
      else if ¬ (elem_pow w modulus yM 2 =
          add_mod w modulus
            (add_mod w modulus (elem_pow w modulus xM 3) (mul_redc w modulus aM xM)) bM) then
        some (Except.error "Generator not on curve")
      else
        let c : Curve := ⟨bits, w, modulus, order, aM, bM, cofactor, xM, yM⟩
        match mul_uint c fuel (generator c) order with
        | none => none
        | some r =>
          if r = Pt.inf then some (Except.ok c)
          else some (Except.error "Generator order mismatch")
    | _, _ => none

/-! ## BSI TR-03111 codec (`codec/bsi_tr03111.rs`)

Buffers are `List Nat` of bytes, consumed from the front; decoders return
the decoded value together with the unconsumed rest. -/

/-- TR-03111 3.1.2 integer encoding at a fixed byte length `size`
(`BsiTr031111Codec::encode` for `Uint`): write the full-width big-endian
bytes, left-padded or left-trimmed to `size`.  `none` models the failure of
`assert!(value.byte_len() <= size)` or of the all-zeros assert on the
trimmed prefix. -/
def encode_uint_bsi (bits size v : Nat) : Option (List Nat) :=
  if size < byte_len v then none
  else
    let bytes := be_bytes ((bits + 7) / 8) v
    let pad := if bytes.length < size then List.replicate (size - bytes.length) 0 else []
    let trim := bytes.length - size
    if (bytes.take trim).all (fun b => b = 0) then some (pad ++ bytes.drop trim)
    else none

/-- TR-03111 3.1.2 integer decoding at a fixed byte length `size`
(`BsiTr031111Codec::decode` for `Uint`): read `size` bytes, trim to the
`Uint` width, fail if the value does not fit `bits` bits. -/
def decode_uint_bsi (bits size : Nat) (buf : List Nat) :
    Except String (Nat × List Nat) :=
  if buf.length < size then Except.error "Insufficient bytes remaining"
  else
    let bytes := buf.take size
    let trim := size - (bits + 7) / 8
    let u := val_be (bytes.drop trim)
    if u < 2 ^ bits then Except.ok (u, buf.drop size)
    else Except.error "Value to large for target Uint"

/-- TR-03111 3.1.3 field-element encoding: integer encoding with
`size = byte_len(modulus)` of the element's value. -/
def encode_field (bits w p : Nat) (a : Nat) : Option (List Nat) :=
  encode_uint_bsi bits (byte_len p) (to_uint w p a)

/-- TR-03111 3.1.3 field-element decoding: decode `byte_len(modulus)`
bytes, reduce modulo the modulus, convert with `from`.  The outer `Option`
models the (unreachable, since `u % p < p`) panic of `from`'s assert. -/
def decode_field (bits w p : Nat) (buf : List Nat) :
    Option (Except String (Nat × List Nat)) :=
  match decode_uint_bsi bits (byte_len p) buf with
  | Except.error e => some (Except.error e)
  | Except.ok (u, rest) =>
    match from_uint w p (u % p) with
    | none => none
    | some m => some (Except.ok (m, rest))

/-- TR-03111 3.2 point encoding (`BsiTr031111Codec::encode` for
`EllipticCurvePoint`).  Note the source computes
`let even = y.to_uint().bit(0)` — which is set exactly when `y` is odd —
and writes tag 2 when that bit is set. -/
def encode_point (c : Curve) (compressed : Bool) : Pt → Option (List Nat)
  | Pt.inf => some [0]
  | Pt.aff x y =>
    if compressed then do
      let even := (to_uint c.w c.p y).testBit 0
      let xs ← encode_field c.bits c.w c.p x
      pure ((if even then 2 else 3) :: xs)
    else do
      let xs ← encode_field c.bits c.w c.p x
      let ys ← encode_field c.bits c.w c.p y
      pure (4 :: xs ++ ys)

/-- TR-03111 3.2 point decoding (`BsiTr031111Codec::decode` for
`EllipticCurvePoint`).  The outer `Option` models panics (`get_u8` past the
end, `from_x`'s square root on an unsupported modulus, a panic inside
`from_affine`); `Except` the codec errors. -/
def decode_point (c : Curve) (fuel : Nat) (buf : List Nat) :
    Option (Except String (Pt × List Nat)) :=
  match buf with
  | [] => none
  | byte :: rest =>
    if byte = 0 then some (Except.ok (Pt.inf, rest))
    else if byte = 2 ∨ byte = 3 then
      let want_even := byte = 2
      match decode_field c.bits c.w c.p rest with
      | none => none
      | some (Except.error e) => some (Except.error e)
      | some (Except.ok (x, rest2)) =>
        match from_x c x with
        | none => none
        | some none => some (Except.error "Invalid x coordinate")
        | some (some pt) =>
          match pt with
          | Pt.inf => none  -- `p.y().unwrap()` (unreachable: `from_x` is affine)
          | Pt.aff px py =>
            let is_even := (to_uint c.w c.p py).testBit 0
            some (Except.ok
              ((if want_even = is_even then Pt.aff px py else neg_pt c (Pt.aff px py)),
               rest2))
    else if byte = 4 then
      match decode_field c.bits c.w c.p rest with
      | none => none
      | some (Except.error e) => some (Except.error e)
      | some (Except.ok (x, rest2)) =>
        match decode_field c.bits c.w c.p rest2 with
        | none => none
        | some (Except.error e) => some (Except.error e)
        | some (Except.ok (y, rest3)) =>
          match from_affine c fuel x y with
          | none => none
          | some (Except.error e) => some (Except.error e)
          | some (Except.ok pt) => some (Except.ok (pt, rest3))
    else some (Except.error "Invalid byte for elliptic curve point")

/-! ## ICAO 9303 codec (`codec/icao_9303.rs`): BER length -/

/-- `Icao9303Codec::encoded_size` for `BerSize`: the specialised size
computation `match value.0.ilog2() { ..8 => 1, n => 1 + (n + 7) / 8 }`.
`none` models the `ilog2` panic on 0. -/
def encoded_size_ber (n : Nat) : Option Nat :=
  if n = 0 then none
  else
    let ilog := bit_len n - 1
    if ilog < 8 then some 1
    else some (1 + (ilog + 7) / 8)

/-- `Icao9303Codec::encode` for `BerSize`: short form below 128, else
`0x80 | len` followed by the minimal big-endian bytes (usize is 8 bytes). -/
def encode_ber (n : Nat) : List Nat :=
  if n < 128 then [n]
  else
    let be := be_bytes 8 n
    -- `position(|&b| b != 0).unwrap_or(0)`
    let trim := if be.all (fun b => b = 0) then 0 else be.findIdx (fun b => b ≠ 0)
    let trimmed := be.drop trim
    (0x80 ||| trimmed.length) :: trimmed

/-- The `Codec::encoded_size` default implementation: encode into a fresh
buffer and take its length. -/
def encoded_size_ber_default (n : Nat) : Nat := (encode_ber n).length

/-! ## Mod-P groups (`groups/modp_group.rs`) -/

structure ModPGroup where
  wU : Nat
  wV : Nat
  p : Nat
  order : Nat
  generator_monty : Nat
  deriving Repr, DecidableEq

/-- `ModPGroup::new` (the `groups/modp_group.rs` version): ensure
`generator < modulus`, build both rings, ensure
`generator.pow_ct(order) == one`.  `wU`/`wV` are the Montgomery radix
exponent of the base `Uint` and the declared bit width of the order's
`Uint` type (the `pow_ct` iteration count, spec-modelled as for
`mul_uint`).  `none` models `from_modulus` panics on even moduli. -/
def modp_new (wU wV : Nat) (modulus generator order : Nat) :
    Option (Except String ModPGroup) :=
  if ¬ generator < modulus then some (Except.error "ensure generator below modulus")
  else if modulus % 2 = 0 then none
  else if order % 2 = 0 then none
  else
    let gM := mul_redc wU modulus generator (mont_r2 wU modulus)
    if pow_ct wU modulus gM order wV = mont_r wU modulus then
      some (Except.ok ⟨wU, wV, modulus, order, gM⟩)
    else some (Except.error "Generator has incorrect order")

/-! ## ECDSA verification (`ecdsa.rs`) -/

/-- Modelled from the spec: `CryptoGroup::x_of` is not among the sources
(only its caller `ECPublicKey::verify` is).  Per the spec the check is
"x(X) mod n ≠ r", and `EllipticCurvePoint::x()` is `None` at infinity, so
`x_of` yields the x-coordinate value reduced modulo the group order and
`None` at the point at infinity. -/
def x_of (c : Curve) : Pt → Option Nat
  | Pt.inf => none
  | Pt.aff x _ => some (to_uint c.w c.p x % c.n)

/-- The point `u₁·G + u₂·Q` computed by `ECPublicKey::verify` (given the
already-computed scalars in Montgomery form). -/
def ecdsa_point (c : Curve) (fuel : Nat) (q : Pt) (u1 u2 : Nat) : Option Pt := do
  let p1 ← mul_uint c fuel (generator c) (to_uint c.w c.n u1)
  let p2 ← mul_uint c fuel q (to_uint c.w c.n u2)
  pt_add c fuel p1 p2

/-- `ECPublicKey::verify`: `w = s⁻¹` (error when `s` is not invertible),
`u₁ = e·w`, `u₂ = r·w`, `X = u₁·G + u₂·Q`, then
`let x = self.group.x_of(&q).unwrap(); ensure!(x == *r)`.
The outer `Option` models panics — in particular the `unwrap` when
`x_of` is `None` at `X = ∞`. -/
def ecdsa_verify (c : Curve) (fuel : Nat) (q : Pt) (eM rM sM : Nat) :
    Option (Except String Unit) :=
  match elem_inv c.w c.n sM with
  | none => some (Except.error "Invalid s value")
  | some wInv =>
    let u1 := mul_redc c.w c.n eM wInv
    let u2 := mul_redc c.w c.n rM wInv
    match ecdsa_point c fuel q u1 u2 with
    | none => none
    | some pt =>
      match x_of c pt with
      | none => none  -- `.unwrap()` on `None`: panic
      | some x =>
        if x = to_uint c.w c.n rM then some (Except.ok ())
        else some (Except.error "ensure x equals r failed")

/-! ## RSASSA-PSS verification (`rsa.rs`)

The digest functions are the externally supplied hash interface (spec §6);
they are passed in as `hashA` (the params' `hash_algorithm`) and `hashM`
(the MGF1 digest).  `saltLen` and `trailer` are the first bytes of the
params' `salt_length` and `trailer_field` integers. -/

/-- `rsa.rs::mgf1`: concatenate `hash(seed ‖ counter)` until `out_len`
bytes are available, then truncate.  The `while` loop is modelled with
fuel (`none` = divergence, which the source exhibits when the digest
output is empty). -/
def mgf1_loop (hash : List Nat → List Nat) (seed : List Nat) (outLen : Nat) :
    Nat → Nat → List Nat → Option (List Nat)
  | 0, _, _ => none
  | f + 1, counter, mask =>
    if outLen ≤ mask.length then some mask
    else mgf1_loop hash seed outLen f (counter + 1)
      (mask ++ hash (seed ++ be_bytes 4 counter))

/-- `rsa.rs::mgf1`. -/
def mgf1 (hash : List Nat → List Nat) (seed : List Nat) (outLen fuel : Nat) :
    Option (List Nat) :=
  (mgf1_loop hash seed outLen fuel 0 []).map (List.take outLen)

/-- The descending scan for the `0x01` separator in the unmasked DB
(`for i in (0..salt_start).rev() { .. }`). -/
def find_one (db : List Nat) : Nat → Option Nat
  | 0 => none
  | i + 1 =>
    if db.getD i 0 = 1 then some i
    else if db.getD i 0 ≠ 0 then none
    else find_one db i

/-- `RSAPublicKey::verify_pss`, translated from `rsa.rs`.  `p` is the RSA
modulus, `e` the public exponent, `msgM`/`sigM` the Montgomery values of
the message and signature ring elements.  The `pow_ct` runs for `bits`
iterations (the declared width of the exponent's `Uint` type,
spec-modelled as elsewhere).  Note step 8 takes the low-order `hash_len`
bytes of the message operand's encoding — it does not hash the message. -/
def verify_pss (bits w fuel p e : Nat) (hashA hashM : List Nat → List Nat)
    (saltLen trailer : Nat) (msgM sigM : Nat) : Option (Except String Unit) :=
  let ring_bit_len := bit_len p
  if ¬ trailer = 1 then some (Except.error "Unrecognized trailer field")
  else
    let em := pow_ct w p sigM e bits
    let em_bytes := be_bytes ((bits + 7) / 8) (to_uint w p em)
    let em_len := (ring_bit_len + 7) / 8
    if ¬ em_bytes.getLast?.getD 0 = 0xbc then some (Except.error "Invalid PSS trailer byte")
    else
      let hash_len := (hashA []).length
      if em_len < hash_len + saltLen + 2 then
        some (Except.error "Encoded message too short for PSS")
      else
        let db_len := em_len - hash_len - 1
        let db := em_bytes.take db_len
        let h := (em_bytes.drop db_len).take hash_len
        match mgf1 hashM h db_len fuel with
        | none => none
        | some mask =>
          let db_unmasked := List.zipWith (fun a b => a ^^^ b) db mask
          let em_bits := ring_bit_len - 1
          let db_unmasked :=
            match db_unmasked with
            | [] => []
            | d0 :: rest => (d0 &&& (0xff >>> (8 * em_len - em_bits))) :: rest
          let salt_start := db_len - saltLen
          match find_one db_unmasked salt_start with
          | none => some (Except.error "DB format mismatch: missing 0x01")
          | some one_pos =>
            if ¬ (db_unmasked.take one_pos).all (fun b => b = 0) then
              some (Except.error "DB format mismatch: invalid padding")
            else
              let salt := db_unmasked.drop (one_pos + 1)
              if ¬ salt.length = saltLen then some (Except.error "Salt length mismatch")
              else
                let message_bytes := be_bytes ((bits + 7) / 8) (to_uint w p msgM)
                let pre_data := List.replicate 8 0
                  ++ message_bytes.drop (message_bytes.length - hash_len) ++ salt
                let h_prime := hashA pre_data
                if h_prime = h then some (Except.ok ())
                else some (Except.error "PSS verification hash check failed")

/-- Modelled from the spec: the RFC-8017-strict pipeline of §4.H step 8 —
the same verification pipeline, but with `mHash = Hash(message)` computed inside
the verification from the raw message bytes `m`, as the claim under
examination describes.  Used as the comparison point for the refinement
claim about `verify_pss`. -/
def verify_pss_spec (bits w fuel p e : Nat) (hashA hashM : List Nat → List Nat)
    (saltLen trailer : Nat) (m : List Nat) (sigM : Nat) : Option (Except String Unit) :=
  let ring_bit_len := bit_len p
  if ¬ trailer = 1 then some (Except.error "Unrecognized trailer field")
  else
    let em := pow_ct w p sigM e bits
    let em_bytes := be_bytes ((bits + 7) / 8) (to_uint w p em)
    let em_len := (ring_bit_len + 7) / 8
    if ¬ em_bytes.getLast?.getD 0 = 0xbc then some (Except.error "Invalid PSS trailer byte")
    else
      let hash_len := (hashA []).length
      if em_len < hash_len + saltLen + 2 then
        some (Except.error "Encoded message too short for PSS")
      else
        let db_len := em_len - hash_len - 1
        let db := em_bytes.take db_len
        let h := (em_bytes.drop db_len).take hash_len
        match mgf1 hashM h db_len fuel with
        | none => none
        | some mask =>
          let db_unmasked := List.zipWith (fun a b => a ^^^ b) db mask
          let em_bits := ring_bit_len - 1
          let db_unmasked :=
            match db_unmasked with
            | [] => []
            | d0 :: rest => (d0 &&& (0xff >>> (8 * em_len - em_bits))) :: rest
          let salt_start := db_len - saltLen
          match find_one db_unmasked salt_start with
          | none => some (Except.error "DB format mismatch: missing 0x01")
          | some one_pos =>
            if ¬ (db_unmasked.take one_pos).all (fun b => b = 0) then
              some (Except.error "DB format mismatch: invalid padding")
            else
              let salt := db_unmasked.drop (one_pos + 1)
              if ¬ salt.length = saltLen then some (Except.error "Salt length mismatch")
              else
                let m_hash := hashA m
                let pre_data := List.replicate 8 0 ++ m_hash ++ salt
                let h_prime := hashA pre_data
                if h_prime = h then some (Except.ok ())
                else some (Except.error "PSS verification hash check failed")

/-! ## Concrete instances used by the claim theorems

A small valid curve over `F₃₁` (`y² = x³ + 1`, generator `(0, 1)` of order
3, cofactor 1, backed by `Uint<64, 1>`), its sibling over `F₂₉`
(`29 ≡ 5 mod 8`), and a small injected digest function. -/

/-- The curve produced by
`EllipticCurve::new(31, 0, 1, 0, 1, 3, 1)` on a `Uint<64, 1>` backend:
Montgomery forms are `v · 2⁶⁴ mod 31` and `2⁶⁴ ≡ 16 (mod 31)`. -/
def c31 : Curve := ⟨64, 64, 31, 3, 0, 16, 1, 0, 16⟩

/-- The curve produced by
`EllipticCurve::new(29, 0, 1, 0, 1, 3, 1)` on a `Uint<64, 1>` backend:
`2⁶⁴ ≡ 24 (mod 29)`. -/
def c29 : Curve := ⟨64, 64, 29, 3, 0, 24, 1, 0, 24⟩

/-- A digest function for the externally injected hash interface (spec §6):
one output byte, the byte sum modulo 256. -/
def sum_hash (l : List Nat) : List Nat := [l.foldl (fun a b => a + b) 0 % 256]

/-- Abbreviation for the Montgomery radix `R = 2^w` as a residue modulo
`p`, the proof layer's image of the embedding's Montgomery forms. -/
def rZ (w p : Nat) : ZMod p := (2 : ZMod p) ^ w

/-!
# Theorems

The development now turns to proofs: correctness of the REDC layer, the
cast lemmas into `ZMod p`, the ladders, the codecs, and finally the claim
theorems.
-/

/-! ## Generic facts about the helpers -/

theorem bit_len_fuel_lt (f n : Nat) (h : n ≤ f) : n < 2 ^ bit_len_fuel f n := by
  induction f generalizing n with
  | zero => simpa [bit_len_fuel] using h
  | succ f ih =>
    by_cases h0 : n = 0
    · simp [bit_len_fuel, h0]
    · have hdiv : n / 2 ≤ f := by omega
      have := ih (n / 2) hdiv
      simp only [bit_len_fuel, h0, if_false]
      have : n / 2 < 2 ^ bit_len_fuel f (n / 2) := this
      calc n < 2 * (n / 2) + 2 := by omega
      _ ≤ 2 * 2 ^ bit_len_fuel f (n / 2) := by omega
      _ = 2 ^ (bit_len_fuel f (n / 2) + 1) := by ring

theorem bit_len_fuel_le (f n k : Nat) (hf : n ≤ f) (h : n < 2 ^ k) :
    bit_len_fuel f n ≤ k := by
  induction f generalizing n k with
  | zero => simp [bit_len_fuel]
  | succ f ih =>
    by_cases h0 : n = 0
    · simp [bit_len_fuel, h0]
    · simp only [bit_len_fuel, h0, if_false]
      have hk : k ≠ 0 := by
        intro hk0
        subst hk0
        simp at h
        omega
      obtain ⟨k', rfl⟩ := Nat.exists_eq_succ_of_ne_zero hk
      have hdiv : n / 2 ≤ f := by omega
      have hlt : n / 2 < 2 ^ k' := by
        have : 2 ^ (k' + 1) = 2 * 2 ^ k' := by ring
        omega
      have := ih (n / 2) k' hdiv hlt
      omega

theorem lt_two_pow_bit_len (n : Nat) : n < 2 ^ bit_len n :=
  bit_len_fuel_lt n n le_rfl

theorem bit_len_le (n k : Nat) (h : n < 2 ^ k) : bit_len n ≤ k :=
  bit_len_fuel_le n n k le_rfl h

theorem bit_len_le_iff (n k : Nat) : bit_len n ≤ k ↔ n < 2 ^ k := by
  constructor
  · intro h
    exact lt_of_lt_of_le (lt_two_pow_bit_len n) (Nat.pow_le_pow_right (by norm_num) h)
  · exact bit_len_le n k

theorem bit_len_mono {m n : Nat} (h : m ≤ n) : bit_len m ≤ bit_len n :=
  bit_len_le m _ (lt_of_le_of_lt h (lt_two_pow_bit_len n))

theorem byte_len_le_iff (n s : Nat) : byte_len n ≤ s ↔ n < 2 ^ (8 * s) := by
  unfold byte_len
  rw [← bit_len_le_iff]
  omega

theorem byte_len_mono {m n : Nat} (h : m ≤ n) : byte_len m ≤ byte_len n := by
  unfold byte_len
  have := bit_len_mono h
  omega

/-! be_bytes / val_be -/

theorem be_bytes_length (l v : Nat) : (be_bytes l v).length = l := by
  induction l generalizing v with
  | zero => rfl
  | succ l ih => simp [be_bytes, ih]

theorem val_be_append_one (xs : List Nat) (b : Nat) :
    val_be (xs ++ [b]) = 256 * val_be xs + b := by
  unfold val_be
  rw [List.foldl_append]
  rfl

theorem val_be_be_bytes (l v : Nat) : val_be (be_bytes l v) = v % 256 ^ l := by
  induction l generalizing v with
  | zero => simp [be_bytes, val_be, Nat.mod_one]
  | succ l ih =>
    rw [be_bytes, val_be_append_one, ih]
    have h256 : (0:Nat) < 256 := by norm_num
    calc 256 * (v / 256 % 256 ^ l) + v % 256
        = v % 256 + 256 * (v / 256 % 256 ^ l) := by ring
      _ = v % (256 * 256 ^ l) := (Nat.mod_mul).symm
      _ = v % 256 ^ (l + 1) := by ring_nf

theorem val_be_be_bytes_of_lt (l v : Nat) (h : v < 256 ^ l) :
    val_be (be_bytes l v) = v := by
  rw [val_be_be_bytes, Nat.mod_eq_of_lt h]

theorem be_bytes_zero (l : Nat) : be_bytes l 0 = List.replicate l 0 := by
  induction l with
  | zero => rfl
  | succ l ih =>
    rw [be_bytes, Nat.zero_div, ih, Nat.zero_mod, ← List.replicate_succ']

theorem be_bytes_split (a b v : Nat) :
    be_bytes (a + b) v = be_bytes a (v / 256 ^ b) ++ be_bytes b v := by
  induction b generalizing v with
  | zero => simp [be_bytes]
  | succ b ih =>
    have : a + (b + 1) = (a + b) + 1 := by omega
    rw [this, be_bytes, ih]
    simp [be_bytes, Nat.div_div_eq_div_mul]
    ring_nf

/-! ## Correctness of the Montgomery model -/

theorem inv2k_iter_lt (w p i : Nat) : inv2k_iter w p i < 2 ^ w := by
  cases i with
  | zero =>
    simp only [inv2k_iter]
    exact Nat.mod_lt _ (Nat.pos_pow_of_pos w (by norm_num))
  | succ i =>
    simp only [inv2k_iter, inv2k_step]
    exact Nat.mod_lt _ (Nat.pos_pow_of_pos w (by norm_num))

theorem inv2k_iter_dvd (w p : Nat) (hp : p % 2 = 1) (i : Nat) :
    ((2 : Int) ^ min (2 ^ i) w) ∣ ((p : Int) * (inv2k_iter w p i : Int) - 1) := by
  induction i with
  | zero =>
    rcases Nat.eq_zero_or_pos w with hw | hw
    · subst hw
      simp
    · have hmin : min (2 ^ 0) w = 1 := by
        simp only [pow_zero]
        omega
      rw [hmin]
      have h1 : inv2k_iter w p 0 = 1 := by
        simp only [inv2k_iter]
        apply Nat.mod_eq_of_lt
        calc (1 : Nat) < 2 ^ 1 := by norm_num
          _ ≤ 2 ^ w := Nat.pow_le_pow_right (by norm_num) (by omega)
      rw [h1]
      have h2 : (p : Int) * ((1 : Nat) : Int) - 1 = p - 1 := by push_cast; ring
      rw [h2, pow_one]
      omega
  | succ i ih =>
    have hWpos : (0 : Nat) < 2 ^ w := Nat.pos_pow_of_pos w (by norm_num)
    set X := inv2k_iter w p i with hX
    set t := p * X % 2 ^ w with hdeft
    set S := 2 + 2 ^ w - t with hdefS
    have hXs : inv2k_iter w p (i + 1) = X * S % 2 ^ w := by
      simp only [inv2k_iter, inv2k_step, hX, hdeft, hdefS]
    set X' := X * S % 2 ^ w with hdefX'
    rw [hXs]
    have htle : t ≤ 2 + 2 ^ w := le_trans (Nat.le_of_lt (Nat.mod_lt _ hWpos)) (by omega)
    have cast1 : (X' : Int) = ((X : Int) * (S : Int)) % (2 : Int) ^ w := by
      rw [hdefX']
      push_cast
      ring_nf
    have castS : (S : Int) = 2 + (2 : Int) ^ w - (t : Int) := by
      rw [hdefS]
      push_cast [Nat.cast_sub htle]
      ring
    have castT : (t : Int) = ((p : Int) * (X : Int)) % (2 : Int) ^ w := by
      rw [hdeft]
      push_cast
      ring_nf
    have h1 : (X' : Int) ≡ (X : Int) * S [ZMOD (2 : Int) ^ w] := by
      rw [cast1]
      exact Int.mod_modEq _ _
    have h2 : (t : Int) ≡ (p : Int) * X [ZMOD (2 : Int) ^ w] := by
      rw [castT]
      exact Int.mod_modEq _ _
    have h3 : (S : Int) ≡ 2 - (p : Int) * X [ZMOD (2 : Int) ^ w] := by
      rw [castS]
      refine Int.modEq_iff_dvd.mpr ?_
      have hd : (2 : Int) ^ w ∣ ((p : Int) * X - t) := Int.modEq_iff_dvd.mp h2
      have e1 : (2 - (p : Int) * X) - (2 + (2 : Int) ^ w - t)
          = -((p : Int) * X - t) - 2 ^ w := by ring
      rw [e1]
      exact dvd_sub (dvd_neg.mpr hd) dvd_rfl
    have h4 : (p : Int) * X' ≡ (p : Int) * X * (2 - (p : Int) * X) [ZMOD (2 : Int) ^ w] := by
      calc (p : Int) * X' ≡ (p : Int) * ((X : Int) * S) [ZMOD (2 : Int) ^ w] :=
            Int.ModEq.mul_left _ h1
        _ ≡ (p : Int) * ((X : Int) * (2 - (p : Int) * X)) [ZMOD (2 : Int) ^ w] :=
            Int.ModEq.mul_left _ (Int.ModEq.mul_left _ h3)
        _ = (p : Int) * X * (2 - (p : Int) * X) := by ring
    have key : (2 : Int) ^ w ∣ ((p : Int) * X' - 1 + ((p : Int) * X - 1) ^ 2) := by
      have e2 : (p : Int) * X' - 1 + ((p : Int) * X - 1) ^ 2
          = (p : Int) * X' - (p : Int) * X * (2 - (p : Int) * X) := by ring
      rw [e2]
      have := (Int.modEq_iff_dvd.mp h4)
      simpa using (dvd_neg.mpr this)
    have hm : min (2 ^ (i + 1)) w ≤ 2 * min (2 ^ i) w := by
      rcases le_total (2 ^ i) w with h | h
      · have : min (2 ^ i) w = 2 ^ i := min_eq_left h
        rw [this]
        have : min (2 ^ (i + 1)) w ≤ 2 ^ (i + 1) := min_le_left _ _
        calc min (2 ^ (i + 1)) w ≤ 2 ^ (i + 1) := this
          _ = 2 * 2 ^ i := by ring
      · have h5 : min (2 ^ i) w = w := min_eq_right h
        rw [h5]
        have : min (2 ^ (i + 1)) w ≤ w := min_le_right _ _
        omega
    have hsq : (2 : Int) ^ (2 * min (2 ^ i) w) ∣ ((p : Int) * X - 1) ^ 2 := by
      rw [two_mul, pow_add, sq]
      exact mul_dvd_mul ih ih
    have hD2 : (2 : Int) ^ min (2 ^ (i + 1)) w ∣ ((p : Int) * X - 1) ^ 2 :=
      dvd_trans (pow_dvd_pow 2 hm) hsq
    have hDW : (2 : Int) ^ min (2 ^ (i + 1)) w ∣ (2 : Int) ^ w :=
      pow_dvd_pow 2 (min_le_right _ _)
    have final : (p : Int) * X' - 1
        = ((p : Int) * X' - 1 + ((p : Int) * X - 1) ^ 2) - ((p : Int) * X - 1) ^ 2 := by ring
    rw [final]
    exact dvd_sub (dvd_trans hDW key) hD2

/-- The `mod_inv` ring constant really is `-p⁻¹ mod 2^w`:
`p * inv2k ≡ 1 (mod 2^w)`. -/
theorem inv2k_spec (w p : Nat) (hp : p % 2 = 1) :
    ((2 : Int) ^ w) ∣ ((p : Int) * (inv2k w p : Int) - 1) := by
  have h := inv2k_iter_dvd w p hp w
  have hmin : min (2 ^ w) w = w := min_eq_right (Nat.le_of_lt (Nat.lt_two_pow w))
  rwa [hmin] at h

/-- REDC divisibility: `2^w` divides `t + m * p` where `m = t * mod_inv mod 2^w`. -/
theorem redc_dvd (w p t : Nat) (hp : p % 2 = 1) :
    2 ^ w ∣ (t + t * neg_mod_inv w p % 2 ^ w * p) := by
  have hWpos : (0 : Nat) < 2 ^ w := Nat.pos_pow_of_pos w (by norm_num)
  set m := t * neg_mod_inv w p % 2 ^ w with hdefm
  have hinvle : inv2k w p ≤ 2 ^ w := Nat.le_of_lt (inv2k_iter_lt w p w)
  -- work in Int
  have castm : (m : Int) = ((t : Int) * (neg_mod_inv w p : Int)) % (2 : Int) ^ w := by
    rw [hdefm]
    push_cast
    ring_nf
  have castn : (neg_mod_inv w p : Int) = ((2 : Int) ^ w - (inv2k w p : Int)) % (2 : Int) ^ w := by
    unfold neg_mod_inv
    push_cast [Nat.cast_sub hinvle]
    ring_nf
  have h1 : (m : Int) ≡ (t : Int) * (neg_mod_inv w p : Int) [ZMOD (2 : Int) ^ w] := by
    rw [castm]
    exact Int.mod_modEq _ _
  have h2 : (neg_mod_inv w p : Int) ≡ -(inv2k w p : Int) [ZMOD (2 : Int) ^ w] := by
    rw [castn]
    refine (Int.mod_modEq _ _).trans (Int.modEq_iff_dvd.mpr ?_)
    have e : -(inv2k w p : Int) - ((2 : Int) ^ w - (inv2k w p : Int)) = -((2 : Int) ^ w) := by
      ring
    rw [e]
    exact dvd_neg.mpr dvd_rfl
  have h3 : (p : Int) * (inv2k w p : Int) ≡ 1 [ZMOD (2 : Int) ^ w] :=
    Int.modEq_iff_dvd.mpr (by simpa using dvd_neg.mpr (inv2k_spec w p hp))
  have h4 : (t : Int) + (m : Int) * p ≡ 0 [ZMOD (2 : Int) ^ w] := by
    calc (t : Int) + (m : Int) * p
        ≡ (t : Int) + ((t : Int) * (neg_mod_inv w p : Int)) * p [ZMOD (2 : Int) ^ w] :=
          Int.ModEq.add_left _ (Int.ModEq.mul_right _ h1)
      _ ≡ (t : Int) + ((t : Int) * (-(inv2k w p : Int))) * p [ZMOD (2 : Int) ^ w] :=
          Int.ModEq.add_left _ (Int.ModEq.mul_right _ (Int.ModEq.mul_left _ h2))
      _ = (t : Int) - (t : Int) * ((p : Int) * (inv2k w p : Int)) := by ring
      _ ≡ (t : Int) - (t : Int) * 1 [ZMOD (2 : Int) ^ w] :=
          Int.ModEq.sub_left _ (Int.ModEq.mul_left _ h3)
      _ = 0 := by ring
  have h5 : ((2 : Int) ^ w) ∣ ((t : Int) + (m : Int) * p) := by
    have hd := Int.modEq_iff_dvd.mp h4
    rw [zero_sub] at hd
    exact dvd_neg.mp hd
  exact_mod_cast h5

theorem r_isUnit (w p : Nat) (hp : p % 2 = 1) : IsUnit (rZ w p) := by
  have hcop : Nat.Coprime (2 ^ w) p :=
    Nat.Coprime.pow_left w (Nat.coprime_two_left.mpr (Nat.odd_iff.mpr hp))
  have := (ZMod.isUnit_iff_coprime (2 ^ w) p).mpr hcop
  have hcast : ((2 ^ w : Nat) : ZMod p) = rZ w p := by push_cast [rZ]; ring
  rwa [hcast] at this

/-- `mul_redc` unfolded to its raw expression. -/
theorem mul_redc_def (w p a b : Nat) :
    mul_redc w p a b =
      (if p ≤ (a * b + a * b * neg_mod_inv w p % 2 ^ w * p) / 2 ^ w
       then (a * b + a * b * neg_mod_inv w p % 2 ^ w * p) / 2 ^ w - p
       else (a * b + a * b * neg_mod_inv w p % 2 ^ w * p) / 2 ^ w) := rfl

theorem mul_redc_lt (w p a b : Nat) (hp : p % 2 = 1) (hpw : p < 2 ^ w)
    (ha : a < p) (hb : b < p) : mul_redc w p a b < p := by
  have hppos : 0 < p := by omega
  have hWpos : (0 : Nat) < 2 ^ w := Nat.pos_pow_of_pos w (by norm_num)
  have hm : a * b * neg_mod_inv w p % 2 ^ w < 2 ^ w := Nat.mod_lt _ hWpos
  have htb : a * b < p * p := mul_lt_mul'' ha hb (Nat.zero_le _) (Nat.zero_le _)
  have h1 : a * b < 2 ^ w * p := by
    calc a * b < p * p := htb
      _ ≤ 2 ^ w * p := Nat.mul_le_mul_right p (le_of_lt hpw)
  have h2 : a * b * neg_mod_inv w p % 2 ^ w * p < 2 ^ w * p :=
    (Nat.mul_lt_mul_right hppos).mpr hm
  have hnum : a * b + a * b * neg_mod_inv w p % 2 ^ w * p < 2 ^ w * (2 * p) := by
    calc a * b + a * b * neg_mod_inv w p % 2 ^ w * p
        < 2 ^ w * p + 2 ^ w * p := by omega
      _ = 2 ^ w * (2 * p) := by ring
  have ht2 : (a * b + a * b * neg_mod_inv w p % 2 ^ w * p) / 2 ^ w < 2 * p :=
    Nat.div_lt_of_lt_mul hnum
  rw [mul_redc_def]
  split <;> omega

theorem mul_redc_cast (w p a b : Nat) (hp : p % 2 = 1) :
    (mul_redc w p a b : ZMod p) = (a : ZMod p) * (b : ZMod p) * (rZ w p)⁻¹ := by
  have hdvd : 2 ^ w ∣ (a * b + a * b * neg_mod_inv w p % 2 ^ w * p) := redc_dvd w p (a * b) hp
  set t2 := (a * b + a * b * neg_mod_inv w p % 2 ^ w * p) / 2 ^ w with hdeft2
  have hmul : t2 * 2 ^ w = a * b + a * b * neg_mod_inv w p % 2 ^ w * p :=
    Nat.div_mul_cancel hdvd
  have hcast : (t2 : ZMod p) * rZ w p = (a : ZMod p) * b := by
    have hc := congrArg (fun n : Nat => (n : ZMod p)) hmul
    push_cast at hc
    rw [ZMod.natCast_self, mul_zero, add_zero] at hc
    exact hc
  have hunit := r_isUnit w p hp
  have ht2 : (t2 : ZMod p) = (a : ZMod p) * b * (rZ w p)⁻¹ := by
    calc (t2 : ZMod p) = (t2 : ZMod p) * (rZ w p * (rZ w p)⁻¹) := by
          rw [ZMod.mul_inv_of_unit _ hunit, mul_one]
      _ = ((t2 : ZMod p) * rZ w p) * (rZ w p)⁻¹ := by ring
      _ = (a : ZMod p) * b * (rZ w p)⁻¹ := by rw [hcast]
  rw [mul_redc_def]
  split
  · next hc =>
      have : ((t2 - p : Nat) : ZMod p) = (t2 : ZMod p) := by
        rw [Nat.cast_sub hc, ZMod.natCast_self, sub_zero]
      rw [this, ht2]
  · exact ht2

/-- Values below `p` with equal residues are equal. -/
theorem cast_inj_of_lt (p a b : Nat) (ha : a < p) (hb : b < p)
    (h : (a : ZMod p) = (b : ZMod p)) : a = b := by
  have := congrArg ZMod.val h
  rwa [ZMod.val_cast_of_lt ha, ZMod.val_cast_of_lt hb] at this

theorem mont_r_lt (w p : Nat) (hppos : 0 < p) : mont_r w p < p := Nat.mod_lt _ hppos

theorem mont_r_cast (w p : Nat) : (mont_r w p : ZMod p) = rZ w p := by
  unfold mont_r rZ
  rw [ZMod.natCast_mod]
  push_cast
  ring

theorem mont_r2_cast (w p : Nat) : (mont_r2 w p : ZMod p) = rZ w p * rZ w p := by
  unfold mont_r2 rZ
  rw [ZMod.natCast_mod]
  push_cast
  rw [two_mul, pow_add]

theorem mont_r3_cast (w p : Nat) : (mont_r3 w p : ZMod p) = rZ w p * rZ w p * rZ w p := by
  unfold mont_r3 rZ
  rw [ZMod.natCast_mod]
  push_cast
  rw [show 3 * w = w + w + w by ring, pow_add, pow_add]

theorem from_uint_eq (w p v : Nat) (hv : v < p) :
    from_uint w p v = some (mul_redc w p v (mont_r2 w p)) := by
  unfold from_uint
  rw [if_pos hv]

theorem from_uint_cast (w p v : Nat) (hp : p % 2 = 1) (hv : v < p) :
    (mul_redc w p v (mont_r2 w p) : ZMod p) = (v : ZMod p) * rZ w p := by
  rw [mul_redc_cast w p _ _ hp, mont_r2_cast]
  have hunit := r_isUnit w p hp
  calc (v : ZMod p) * (rZ w p * rZ w p) * (rZ w p)⁻¹
      = (v : ZMod p) * rZ w p * (rZ w p * (rZ w p)⁻¹) := by ring
    _ = (v : ZMod p) * rZ w p := by rw [ZMod.mul_inv_of_unit _ hunit, mul_one]

theorem to_uint_cast (w p a : Nat) (hp : p % 2 = 1) :
    (to_uint w p a : ZMod p) = (a : ZMod p) * (rZ w p)⁻¹ := by
  unfold to_uint
  rw [mul_redc_cast w p _ _ hp]
  push_cast
  ring

theorem to_uint_lt (w p a : Nat) (hp : p % 2 = 1) (hp1 : 1 < p) (hpw : p < 2 ^ w)
    (ha : a < p) : to_uint w p a < p := mul_redc_lt w p a 1 hp hpw ha (by omega)

theorem to_uint_from_uint (w p v : Nat) (hp : p % 2 = 1) (hp1 : 1 < p) (hpw : p < 2 ^ w)
    (hv : v < p) :
    to_uint w p (mul_redc w p v (mont_r2 w p)) = v := by
  have hlt : mul_redc w p v (mont_r2 w p) < p := by
    apply mul_redc_lt w p _ _ hp hpw hv
    exact Nat.mod_lt _ (by omega)
  apply cast_inj_of_lt p _ _ (to_uint_lt w p _ hp hp1 hpw hlt) hv
  rw [to_uint_cast w p _ hp, from_uint_cast w p v hp hv]
  have hunit := r_isUnit w p hp
  rw [mul_assoc, ZMod.mul_inv_of_unit _ hunit, mul_one]

theorem add_mod_def (w p a b : Nat) :
    add_mod w p a b =
      (if 2 ^ w ≤ a + b ∨ ¬ (a + b) % 2 ^ w < p
       then ((a + b) % 2 ^ w + 2 ^ w - p) % 2 ^ w
       else (a + b) % 2 ^ w) := rfl

theorem add_mod_eq (w p a b : Nat) (hpw : p < 2 ^ w) (ha : a < p) (hb : b < p) :
    add_mod w p a b = (a + b) % p := by
  have hWpos : (0 : Nat) < 2 ^ w := Nat.pos_pow_of_pos w (by norm_num)
  rw [add_mod_def]
  by_cases hcar : 2 ^ w ≤ a + b
  · have hmod : (a + b) % 2 ^ w = a + b - 2 ^ w := by
      rw [Nat.mod_eq_sub_mod hcar]
      exact Nat.mod_eq_of_lt (by omega)
    rw [if_pos (Or.inl hcar), hmod]
    have h4 : a + b - 2 ^ w + 2 ^ w - p = a + b - p := by omega
    rw [h4, Nat.mod_eq_of_lt (show a + b - p < 2 ^ w by omega)]
    have h7 : (a + b) % p = a + b - p := by
      rw [Nat.mod_eq_sub_mod (by omega)]
      exact Nat.mod_eq_of_lt (by omega)
    omega
  · have hmod : (a + b) % 2 ^ w = a + b := Nat.mod_eq_of_lt (by omega)
    simp only [hmod]
    by_cases hbor : a + b < p
    · rw [if_neg (by tauto), Nat.mod_eq_of_lt hbor]
    · rw [if_pos (Or.inr (by omega))]
      have h4 : a + b + 2 ^ w - p = (a + b - p) + 2 ^ w := by omega
      rw [h4, Nat.add_mod_right, Nat.mod_eq_of_lt (show a + b - p < 2 ^ w by omega)]
      have h7 : (a + b) % p = a + b - p := by
        rw [Nat.mod_eq_sub_mod (by omega)]
        exact Nat.mod_eq_of_lt (by omega)
      omega

theorem sub_mod_eq (w p a b : Nat) (hpw : p < 2 ^ w) (ha : a < p) (hb : b < p) :
    sub_mod w p a b = (a + (p - b)) % p := by
  unfold sub_mod
  by_cases hc : a < b
  · rw [if_pos hc]
    have h1 : a + 2 ^ w - b + p = (a + p - b) + 2 ^ w := by omega
    rw [h1, Nat.add_mod_right, Nat.mod_eq_of_lt (show a + p - b < 2 ^ w by omega)]
    have h2 : a + (p - b) = a + p - b := by omega
    rw [h2, Nat.mod_eq_of_lt (by omega)]
  · rw [if_neg hc]
    have h2 : a + (p - b) = (a - b) + p := by omega
    rw [h2, Nat.add_mod_right, Nat.mod_eq_of_lt (by omega)]

theorem add_mod_lt (w p a b : Nat) (hppos : 0 < p) (hpw : p < 2 ^ w)
    (ha : a < p) (hb : b < p) : add_mod w p a b < p := by
  rw [add_mod_eq w p a b hpw ha hb]
  exact Nat.mod_lt _ hppos

theorem sub_mod_lt (w p a b : Nat) (hppos : 0 < p) (hpw : p < 2 ^ w)
    (ha : a < p) (hb : b < p) : sub_mod w p a b < p := by
  rw [sub_mod_eq w p a b hpw ha hb]
  exact Nat.mod_lt _ hppos

theorem add_mod_cast (w p a b : Nat) (hpw : p < 2 ^ w) (ha : a < p) (hb : b < p) :
    (add_mod w p a b : ZMod p) = (a : ZMod p) + b := by
  rw [add_mod_eq w p a b hpw ha hb, ZMod.natCast_mod]
  push_cast
  ring

theorem sub_mod_cast (w p a b : Nat) (hpw : p < 2 ^ w) (ha : a < p) (hb : b < p) :
    (sub_mod w p a b : ZMod p) = (a : ZMod p) - b := by
  rw [sub_mod_eq w p a b hpw ha hb, ZMod.natCast_mod]
  push_cast [Nat.cast_sub (le_of_lt hb)]
  have hp0 : ((p : Nat) : ZMod p) = 0 := ZMod.natCast_self p
  rw [hp0]
  ring

/-! ### The exponentiation ladders -/

theorem mont_pow_loop_lt (w p base e : Nat) (hp : p % 2 = 1) (hp1 : 0 < p)
    (hpw : p < 2 ^ w) (hb : base < p) (k : Nat) :
    (mont_pow_loop w p base e k).1 < p ∧ (mont_pow_loop w p base e k).2 < p := by
  induction k with
  | zero => exact ⟨mont_r_lt w p hp1, hb⟩
  | succ k ih =>
    simp only [mont_pow_loop]
    refine ⟨?_, mul_redc_lt w p _ _ hp hpw ih.2 ih.2⟩
    by_cases hbit : e.testBit k
    · simp only [hbit, if_true]
      exact mul_redc_lt w p _ _ hp hpw ih.1 ih.2
    · simp only [hbit, if_false]
      exact ih.1

theorem mont_pow_loop_cast (w p base e : Nat) (hp : p % 2 = 1) (hp1 : 0 < p)
    (hpw : p < 2 ^ w) (hb : base < p) (k : Nat) :
    ((mont_pow_loop w p base e k).1 : ZMod p)
        = rZ w p * ((base : ZMod p) * (rZ w p)⁻¹) ^ (e % 2 ^ k) ∧
      ((mont_pow_loop w p base e k).2 : ZMod p)
        = rZ w p * ((base : ZMod p) * (rZ w p)⁻¹) ^ (2 ^ k) := by
  have hunit := r_isUnit w p hp
  set u := (base : ZMod p) * (rZ w p)⁻¹ with hdefu
  induction k with
  | zero =>
    constructor
    · show (mont_r w p : ZMod p) = rZ w p * u ^ (e % 2 ^ 0)
      rw [mont_r_cast, pow_zero, Nat.mod_one, pow_zero, mul_one]
    · simp only [mont_pow_loop, pow_zero, pow_one]
      rw [hdefu]
      calc (base : ZMod p) = (base : ZMod p) * ((rZ w p)⁻¹ * rZ w p) := by
            rw [ZMod.inv_mul_of_unit _ hunit, mul_one]
        _ = rZ w p * ((base : ZMod p) * (rZ w p)⁻¹) := by ring
  | succ k ih =>
    have hmod : e % 2 ^ (k + 1) = e % 2 ^ k + 2 ^ k * (e / 2 ^ k % 2) := by
      have h2 : (2 : Nat) ^ (k + 1) = 2 ^ k * 2 := by ring
      rw [h2, Nat.mod_mul]
    have hbit : e.testBit k = decide (e / 2 ^ k % 2 = 1) := Nat.testBit_to_div_mod
    constructor
    · simp only [mont_pow_loop]
      by_cases hb2 : e.testBit k
      · simp only [hb2, if_true]
        have hd : e / 2 ^ k % 2 = 1 := by
          rw [hbit] at hb2
          exact of_decide_eq_true hb2
        rw [mul_redc_cast w p _ _ hp, ih.1, ih.2, hmod, hd]
        calc rZ w p * u ^ (e % 2 ^ k) * (rZ w p * u ^ 2 ^ k) * (rZ w p)⁻¹
            = (rZ w p * (rZ w p)⁻¹) * (rZ w p * (u ^ (e % 2 ^ k) * u ^ (2 ^ k))) := by ring
          _ = rZ w p * (u ^ (e % 2 ^ k) * u ^ 2 ^ k) := by
              rw [ZMod.mul_inv_of_unit _ hunit, one_mul]
          _ = rZ w p * u ^ (e % 2 ^ k + 2 ^ k * 1) := by
              rw [Nat.mul_one, pow_add]
      · rw [if_neg (by simp [hb2])]
        have hd : e / 2 ^ k % 2 = 0 := by
          rw [hbit] at hb2
          have := of_decide_eq_false (Bool.of_not_eq_true hb2)
          omega
        rw [ih.1, hmod, hd, Nat.mul_zero, Nat.add_zero]
    · simp only [mont_pow_loop]
      rw [mul_redc_cast w p _ _ hp, ih.2]
      have h2 : (2 : Nat) ^ (k + 1) = 2 ^ k + 2 ^ k := by
        rw [pow_succ]
        ring
      rw [h2, pow_add]
      calc rZ w p * u ^ 2 ^ k * (rZ w p * u ^ 2 ^ k) * (rZ w p)⁻¹
          = (rZ w p * (rZ w p)⁻¹) * (rZ w p * (u ^ 2 ^ k * u ^ 2 ^ k)) := by ring
        _ = rZ w p * (u ^ 2 ^ k * u ^ 2 ^ k) := by
            rw [ZMod.mul_inv_of_unit _ hunit, one_mul]

theorem pow_ct_cast (w p base e iters : Nat) (hp : p % 2 = 1) (hp1 : 0 < p)
    (hpw : p < 2 ^ w) (hb : base < p) (he : e < 2 ^ iters) :
    (pow_ct w p base e iters : ZMod p)
      = rZ w p * ((base : ZMod p) * (rZ w p)⁻¹) ^ e := by
  unfold pow_ct
  rw [(mont_pow_loop_cast w p base e hp hp1 hpw hb iters).1, Nat.mod_eq_of_lt he]

theorem pow_ct_lt (w p base e iters : Nat) (hp : p % 2 = 1) (hp1 : 0 < p)
    (hpw : p < 2 ^ w) (hb : base < p) : pow_ct w p base e iters < p :=
  (mont_pow_loop_lt w p base e hp hp1 hpw hb iters).1

theorem pow_uint_cast (w p base e : Nat) (hp : p % 2 = 1) (hp1 : 0 < p)
    (hpw : p < 2 ^ w) (hb : base < p) :
    (pow_uint w p base e : ZMod p)
      = rZ w p * ((base : ZMod p) * (rZ w p)⁻¹) ^ e := by
  unfold pow_uint
  rw [(mont_pow_loop_cast w p base e hp hp1 hpw hb _).1,
    Nat.mod_eq_of_lt (lt_two_pow_bit_len e)]

theorem pow_uint_lt (w p base e : Nat) (hp : p % 2 = 1) (hp1 : 0 < p)
    (hpw : p < 2 ^ w) (hb : base < p) : pow_uint w p base e < p :=
  (mont_pow_loop_lt w p base e hp hp1 hpw hb _).1

theorem elem_pow_fuel_spec (w p a : Nat) (hp : p % 2 = 1) (hp1 : 0 < p)
    (hpw : p < 2 ^ w) (ha : a < p) :
    ∀ f n, n ≤ f →
      elem_pow_fuel w p a f n < p ∧
      ((elem_pow_fuel w p a f n : ZMod p)
        = rZ w p * ((a : ZMod p) * (rZ w p)⁻¹) ^ n) := by
  have hunit := r_isUnit w p hp
  intro f
  induction f with
  | zero =>
    intro n hn
    have : n = 0 := by omega
    subst this
    refine ⟨mont_r_lt w p hp1, ?_⟩
    show (mont_r w p : ZMod p) = _
    rw [mont_r_cast, pow_zero, mul_one]
  | succ f ih =>
    intro n hn
    match n with
    | 0 =>
      refine ⟨mont_r_lt w p hp1, ?_⟩
      show (mont_r w p : ZMod p) = _
      rw [mont_r_cast, pow_zero, mul_one]
    | 1 =>
      refine ⟨ha, ?_⟩
      show (a : ZMod p) = rZ w p * ((a : ZMod p) * (rZ w p)⁻¹) ^ 1
      rw [pow_one]
      calc (a : ZMod p) = (a : ZMod p) * ((rZ w p)⁻¹ * rZ w p) := by
            rw [ZMod.inv_mul_of_unit _ hunit, mul_one]
        _ = rZ w p * ((a : ZMod p) * (rZ w p)⁻¹) := by ring
    | Nat.succ (Nat.succ m) =>
      have hrec : (m + 2) / 2 ≤ f := by omega
      obtain ⟨ihlt, ihcast⟩ := ih ((m + 2) / 2) hrec
      set u := (a : ZMod p) * (rZ w p)⁻¹ with hdefu
      by_cases hpar : (m + 2) % 2 = 0
      · have hstep : elem_pow_fuel w p a (f + 1) (m + 2)
            = square_redc w p (elem_pow_fuel w p a f ((m + 2) / 2)) := by
          show (if (m + 2) % 2 = 0 then _ else _) = _
          rw [if_pos hpar]
        rw [hstep]
        unfold square_redc
        refine ⟨mul_redc_lt w p _ _ hp hpw ihlt ihlt, ?_⟩
        rw [mul_redc_cast w p _ _ hp, ihcast]
        have hexp : (m + 2) / 2 + (m + 2) / 2 = m + 2 := by omega
        calc rZ w p * u ^ ((m + 2) / 2) * (rZ w p * u ^ ((m + 2) / 2)) * (rZ w p)⁻¹
            = (rZ w p * (rZ w p)⁻¹) * (rZ w p * (u ^ ((m + 2) / 2) * u ^ ((m + 2) / 2))) := by
              ring
          _ = rZ w p * (u ^ ((m + 2) / 2) * u ^ ((m + 2) / 2)) := by
              rw [ZMod.mul_inv_of_unit _ hunit, one_mul]
          _ = rZ w p * u ^ (m + 2) := by rw [← pow_add, hexp]
      · have hstep : elem_pow_fuel w p a (f + 1) (m + 2)
            = mul_redc w p a (square_redc w p (elem_pow_fuel w p a f ((m + 2) / 2))) := by
          show (if (m + 2) % 2 = 0 then _ else _) = _
          rw [if_neg hpar]
        rw [hstep]
        have hsq_lt : square_redc w p (elem_pow_fuel w p a f ((m + 2) / 2)) < p :=
          mul_redc_lt w p _ _ hp hpw ihlt ihlt
        refine ⟨mul_redc_lt w p _ _ hp hpw ha hsq_lt, ?_⟩
        rw [mul_redc_cast w p _ _ hp]
        unfold square_redc
        rw [mul_redc_cast w p _ _ hp, ihcast]
        have hexp : (m + 2) / 2 + (m + 2) / 2 = m + 1 := by omega
        have hu : (a : ZMod p) = rZ w p * u := by
          rw [hdefu]
          calc (a : ZMod p) = (a : ZMod p) * ((rZ w p)⁻¹ * rZ w p) := by
                rw [ZMod.inv_mul_of_unit _ hunit, mul_one]
            _ = rZ w p * ((a : ZMod p) * (rZ w p)⁻¹) := by ring
        rw [hu]
        calc rZ w p * u * (rZ w p * u ^ ((m + 2) / 2) * (rZ w p * u ^ ((m + 2) / 2)) * (rZ w p)⁻¹)
              * (rZ w p)⁻¹
            = (rZ w p * (rZ w p)⁻¹) * (rZ w p * (rZ w p)⁻¹)
              * (rZ w p * (u * (u ^ ((m + 2) / 2) * u ^ ((m + 2) / 2)))) := by ring
          _ = rZ w p * (u * (u ^ ((m + 2) / 2) * u ^ ((m + 2) / 2))) := by
              rw [ZMod.mul_inv_of_unit _ hunit, one_mul, one_mul]
          _ = rZ w p * u ^ (m + 2) := by
              rw [← pow_add, hexp, ← pow_succ']
 
theorem elem_pow_lt (w p a n : Nat) (hp : p % 2 = 1) (hp1 : 0 < p)
    (hpw : p < 2 ^ w) (ha : a < p) : elem_pow w p a n < p :=
  (elem_pow_fuel_spec w p a hp hp1 hpw ha n n le_rfl).1

theorem elem_pow_cast (w p a n : Nat) (hp : p % 2 = 1) (hp1 : 0 < p)
    (hpw : p < 2 ^ w) (ha : a < p) :
    (elem_pow w p a n : ZMod p) = rZ w p * ((a : ZMod p) * (rZ w p)⁻¹) ^ n :=
  (elem_pow_fuel_spec w p a hp hp1 hpw ha n n le_rfl).2

/-! ### Characterisation of `ModPGroup::new` -/

/-- Claim C7 (corrected): `ModPGroup::new(modulus, generator, order)`
(for odd modulus and order representable in their `Uint` types) succeeds
exactly when `generator < modulus` and `generator ^ order = 1 mod
modulus`.  There is no `1 < generator` lower bound: `generator = 1`
satisfies both conditions and is accepted. -/
theorem C7_modp_new_ok_iff (wU wV modulus generator order : Nat)
    (hm : modulus % 2 = 1) (ho : order % 2 = 1) (hmw : modulus < 2 ^ wU)
    (hor : order < 2 ^ wV) :
    (∃ g, modp_new wU wV modulus generator order = some (Except.ok g)) ↔
      (generator < modulus ∧ generator ^ order % modulus = 1 % modulus) := by
  have hp1 : 0 < modulus := by omega
  have hunit := r_isUnit wU modulus hm
  unfold modp_new
  by_cases hg : generator < modulus
  · rw [if_neg (by omega), if_neg (by omega), if_neg (by omega)]
    set gM := mul_redc wU modulus generator (mont_r2 wU modulus) with hdefgM
    have hgM_lt : gM < modulus :=
      mul_redc_lt wU modulus _ _ hm hmw hg (Nat.mod_lt _ hp1)
    have hgM_cast : (gM : ZMod modulus) = (generator : ZMod modulus) * rZ wU modulus :=
      from_uint_cast wU modulus generator hm hg
    have hpow_lt : pow_ct wU modulus gM order wV < modulus :=
      pow_ct_lt wU modulus gM order wV hm hp1 hmw hgM_lt
    have hpow_cast : (pow_ct wU modulus gM order wV : ZMod modulus)
        = rZ wU modulus * (generator : ZMod modulus) ^ order := by
      rw [pow_ct_cast wU modulus gM order wV hm hp1 hmw hgM_lt hor, hgM_cast]
      have : (generator : ZMod modulus) * rZ wU modulus * (rZ wU modulus)⁻¹
          = (generator : ZMod modulus) := by
        rw [mul_assoc, ZMod.mul_inv_of_unit _ hunit, mul_one]
      rw [this]
    constructor
    · rintro ⟨g, hgok⟩
      refine ⟨hg, ?_⟩
      by_cases hcond : pow_ct wU modulus gM order wV = mont_r wU modulus
      · have hz : (pow_ct wU modulus gM order wV : ZMod modulus)
            = (mont_r wU modulus : ZMod modulus) := by rw [hcond]
        rw [hpow_cast, mont_r_cast] at hz
        have hone : (generator : ZMod modulus) ^ order = 1 := by
          have := hunit.mul_left_cancel (a := rZ wU modulus)
            (b := (generator : ZMod modulus) ^ order) (c := 1) (by rw [mul_one]; exact hz)
          exact this
        have : ((generator ^ order : Nat) : ZMod modulus) = ((1 : Nat) : ZMod modulus) := by
          push_cast
          rw [hone]
        exact (ZMod.natCast_eq_natCast_iff _ _ _).mp this
      · rw [if_neg hcond] at hgok
        cases hgok
    · rintro ⟨_, hpow⟩
      have hone : (generator : ZMod modulus) ^ order = 1 := by
        have hcast : ((generator ^ order : Nat) : ZMod modulus) = ((1 : Nat) : ZMod modulus) :=
          (ZMod.natCast_eq_natCast_iff _ _ _).mpr hpow
        push_cast at hcast
        exact hcast
      have hcond : pow_ct wU modulus gM order wV = mont_r wU modulus := by
        apply cast_inj_of_lt modulus _ _ hpow_lt (mont_r_lt wU modulus hp1)
        rw [hpow_cast, mont_r_cast, hone, mul_one]
      rw [if_pos hcond]
      exact ⟨_, rfl⟩
  · rw [if_pos (by omega)]
    constructor
    · rintro ⟨g, hgok⟩
      cases hgok
    · rintro ⟨hglt, _⟩
      exact absurd hglt hg

/-! ### The TR-03111 integer and field-element codec -/

theorem pow256_eq (s : Nat) : (256 : Nat) ^ s = 2 ^ (8 * s) := by
  rw [show (256 : Nat) = 2 ^ 8 by norm_num, ← pow_mul]

theorem decode_uint_bsi_eq (bits size : Nat) (buf : List Nat) (hlen : size ≤ buf.length)
    (htrim : size ≤ (bits + 7) / 8) (hval : val_be (List.take size buf) < 2 ^ bits) :
    decode_uint_bsi bits size buf = Except.ok (val_be (List.take size buf), List.drop size buf) := by
  unfold decode_uint_bsi
  rw [if_neg (by omega)]
  have h0 : size - (bits + 7) / 8 = 0 := by omega
  rw [h0]
  show (if val_be (List.take size buf) < 2 ^ bits
      then Except.ok (val_be (List.take size buf), List.drop size buf)
      else Except.error "Value to large for target Uint")
    = Except.ok (val_be (List.take size buf), List.drop size buf)
  rw [if_pos hval]

theorem decode_field_eq (bits w p : Nat) (buf : List Nat) (hp1 : 0 < p)
    (hlen : byte_len p ≤ buf.length) (hpb : p < 2 ^ bits)
    (hval : val_be (List.take (byte_len p) buf) < 2 ^ bits) :
    decode_field bits w p buf
      = some (Except.ok
          (mul_redc w p (val_be (List.take (byte_len p) buf) % p) (mont_r2 w p),
           List.drop (byte_len p) buf)) := by
  have htrim : byte_len p ≤ (bits + 7) / 8 := by
    have h1 : bit_len p ≤ bits := bit_len_le p bits hpb
    unfold byte_len
    omega
  unfold decode_field
  rw [decode_uint_bsi_eq bits (byte_len p) buf hlen htrim hval]
  have hred := from_uint_eq w p (val_be (List.take (byte_len p) buf) % p) (Nat.mod_lt _ hp1)
  simp only [hred]

theorem encode_uint_bsi_eq (bits size v : Nat) (hv : v < 2 ^ (8 * size))
    (hsize : size ≤ (bits + 7) / 8) :
    encode_uint_bsi bits size v = some (be_bytes size v) := by
  have hbl : byte_len v ≤ size := (byte_len_le_iff v size).mpr hv
  have hlen : (be_bytes ((bits + 7) / 8) v).length = (bits + 7) / 8 := be_bytes_length _ _
  have hl2 : (be_bytes ((bits + 7) / 8 - size) (v / 256 ^ size)).length
      = (bits + 7) / 8 - size := be_bytes_length _ _
  have hsplit : be_bytes ((bits + 7) / 8) v
      = be_bytes ((bits + 7) / 8 - size) (v / 256 ^ size) ++ be_bytes size v := by
    have hsplit0 := be_bytes_split ((bits + 7) / 8 - size) size v
    have hn : (bits + 7) / 8 - size + size = (bits + 7) / 8 := by omega
    rw [hn] at hsplit0
    exact hsplit0
  have hdiv : v / 256 ^ size = 0 := by
    apply Nat.div_eq_of_lt
    rw [pow256_eq]
    exact hv
  have htake : List.take ((be_bytes ((bits + 7) / 8) v).length - size)
      (be_bytes ((bits + 7) / 8) v) = List.replicate ((bits + 7) / 8 - size) 0 := by
    rw [hlen, hsplit, List.take_left' hl2, hdiv, be_bytes_zero]
  have hdrop : List.drop ((be_bytes ((bits + 7) / 8) v).length - size)
      (be_bytes ((bits + 7) / 8) v) = be_bytes size v := by
    rw [hlen, hsplit, List.drop_left' hl2]
  simp only [encode_uint_bsi]
  rw [if_neg (by omega), htake, hdrop]
  rw [if_pos (by
    rw [List.all_eq_true]
    intro b hb
    simp only [decide_eq_true_eq]
    exact List.eq_of_mem_replicate hb)]
  rw [if_neg (by omega), List.nil_append]

theorem encode_field_eq (bits w p a : Nat) (hp : p % 2 = 1) (hp1 : 1 < p)
    (hpw : p < 2 ^ w) (hpb : p < 2 ^ bits) (ha : a < p) :
    encode_field bits w p a = some (be_bytes (byte_len p) (to_uint w p a)) := by
  unfold encode_field
  apply encode_uint_bsi_eq
  · have h1 : to_uint w p a < p := to_uint_lt w p a hp hp1 hpw ha
    have h2 : byte_len p ≤ byte_len p := le_rfl
    have h3 : p < 2 ^ (8 * byte_len p) := (byte_len_le_iff p (byte_len p)).mp le_rfl
    omega
  · have h1 : bit_len p ≤ bits := bit_len_le p bits hpb
    unfold byte_len
    omega

/-- Claim C10 (confirmed): for every ring with modulus `p` and every
buffer of exactly `byte_len p` bytes whose big-endian value `u` satisfies
`p <= u < 2^bits`, the TR-03111 field-element decoder accepts the
out-of-range encoding and returns the element of residue `u mod p` (whose
plain value `to_uint` recovers as `u mod p`). -/
theorem C10_decode_field_reduces (bits w p : Nat) (buf : List Nat)
    (hp : p % 2 = 1) (hp1 : 1 < p) (hpw : p < 2 ^ w) (hpb : p < 2 ^ bits)
    (hlen : buf.length = byte_len p) (hlow : p ≤ val_be buf)
    (hhigh : val_be buf < 2 ^ bits) :
    decode_field bits w p buf
      = some (Except.ok (mul_redc w p (val_be buf % p) (mont_r2 w p), [])) ∧
    to_uint w p (mul_redc w p (val_be buf % p) (mont_r2 w p)) = val_be buf % p := by
  have htake : List.take (byte_len p) buf = buf := List.take_of_length_le (by omega)
  have hdrop : List.drop (byte_len p) buf = [] := List.drop_eq_nil_of_le (by omega)
  constructor
  · rw [decode_field_eq bits w p buf (by omega) (by omega) hpb (by rw [htake]; exact hhigh)]
    rw [htake, hdrop]
  · exact to_uint_from_uint w p _ hp hp1 hpw (Nat.mod_lt _ (by omega))

/-! ### Square roots modulo primes `p ≡ 3 (mod 4)` -/

theorem sqrt_mont_p3 (w p aM : Nat) (eta : ZMod p) (hp4 : p % 4 = 3)
    (hprime : p.Prime) (hpw : p < 2 ^ w) (hp64 : p < 2 ^ 64) (haM : aM < p)
    (hval : (aM : ZMod p) = rZ w p * eta ^ 2) :
    ∃ cand, sqrt_mont w aM p (mont_r w p) = some (some cand) ∧ cand < p ∧
      (cand : ZMod p) = rZ w p * eta ^ ((p + 1) / 2) := by
  have hp2 : p % 2 = 1 := by omega
  have hp1 : 0 < p := by omega
  haveI : Fact p.Prime := ⟨hprime⟩
  have hunit := r_isUnit w p hp2
  set e := p / 4 + 1 with hdefe
  set cand := pow_uint w p aM e with hdefcand
  have hcand_lt : cand < p := pow_uint_lt w p aM e hp2 hp1 hpw haM
  have hua : (aM : ZMod p) * (rZ w p)⁻¹ = eta ^ 2 := by
    rw [hval, mul_comm (rZ w p) (eta ^ 2), mul_assoc, ZMod.mul_inv_of_unit _ hunit, mul_one]
  have h2e : 2 * e = (p + 1) / 2 := by omega
  have hcand_cast : (cand : ZMod p) = rZ w p * eta ^ ((p + 1) / 2) := by
    rw [hdefcand, pow_uint_cast w p aM e hp2 hp1 hpw haM, hua, ← pow_mul, h2e]
  have hsq_cast : (square_redc w p cand : ZMod p) = rZ w p * eta ^ 2 := by
    unfold square_redc
    rw [mul_redc_cast w p _ _ hp2, hcand_cast]
    have hpsum : (p + 1) / 2 + (p + 1) / 2 = p + 1 := by omega
    calc rZ w p * eta ^ ((p + 1) / 2) * (rZ w p * eta ^ ((p + 1) / 2)) * (rZ w p)⁻¹
        = (rZ w p * (rZ w p)⁻¹) * (rZ w p * (eta ^ ((p + 1) / 2) * eta ^ ((p + 1) / 2))) := by
          ring
      _ = rZ w p * (eta ^ ((p + 1) / 2) * eta ^ ((p + 1) / 2)) := by
          rw [ZMod.mul_inv_of_unit _ hunit, one_mul]
      _ = rZ w p * eta ^ (p + 1) := by rw [← pow_add, hpsum]
      _ = rZ w p * eta ^ 2 := by
          rw [pow_succ, ZMod.pow_card, sq]
  have hsq_lt : square_redc w p cand < p := mul_redc_lt w p _ _ hp2 hpw hcand_lt hcand_lt
  have hcheck : square_redc w p cand = aM := by
    apply cast_inj_of_lt p _ _ hsq_lt haM
    rw [hsq_cast, hval]
  refine ⟨cand, ?_, hcand_lt, hcand_cast⟩
  unfold sqrt_mont
  rw [if_neg (by omega), if_pos (Or.inl hp4)]
  show some (if square_redc w p (pow_uint w p aM (p / 4 + 1)) = aM
      then some (pow_uint w p aM (p / 4 + 1)) else none) = some (some cand)
  have hc2 : square_redc w p (pow_uint w p aM (p / 4 + 1)) = aM := by
    rw [← hdefe, ← hdefcand]
    exact hcheck
  rw [if_pos hc2, ← hdefe, ← hdefcand]

theorem from_x_round (c : Curve) (x y : Nat) (hp4 : c.p % 4 = 3) (hprime : c.p.Prime)
    (hpw : c.p < 2 ^ c.w) (hp64 : c.p < 2 ^ 64) (hA : c.a_monty < c.p) (hB : c.b_monty < c.p)
    (hx : x < c.p) (hy : y < c.p) (hcurve : on_curve_eq c x y = true) :
    ∃ cand, from_x c x = some (some (Pt.aff x cand)) ∧ cand < c.p ∧
      (cand : ZMod c.p)
        = rZ c.w c.p * ((y : ZMod c.p) * (rZ c.w c.p)⁻¹) ^ ((c.p + 1) / 2) := by
  have hp2 : c.p % 2 = 1 := by omega
  have hp1 : 0 < c.p := by omega
  have hceq : elem_pow c.w c.p y 2
      = add_mod c.w c.p
          (add_mod c.w c.p (elem_pow c.w c.p x 3) (mul_redc c.w c.p c.a_monty x))
          c.b_monty := by
    have := hcurve
    unfold on_curve_eq at this
    exact of_decide_eq_true this
  set y2 := add_mod c.w c.p
      (add_mod c.w c.p (elem_pow c.w c.p x 3) (mul_redc c.w c.p c.a_monty x))
      c.b_monty with hdefy2
  have hy2lt : y2 < c.p := by
    rw [← hceq]
    exact elem_pow_lt c.w c.p y 2 hp2 hp1 hpw hy
  have hy2cast : (y2 : ZMod c.p)
      = rZ c.w c.p * ((y : ZMod c.p) * (rZ c.w c.p)⁻¹) ^ 2 := by
    rw [← hceq]
    exact elem_pow_cast c.w c.p y 2 hp2 hp1 hpw hy
  obtain ⟨cand, hsqrt, hclt, hccast⟩ :=
    sqrt_mont_p3 c.w c.p y2 ((y : ZMod c.p) * (rZ c.w c.p)⁻¹) hp4 hprime hpw hp64 hy2lt
      hy2cast
  refine ⟨cand, ?_, hclt, hccast⟩
  unfold from_x
  show (match elem_sqrt c y2 with
    | none => none
    | some none => some none
    | some (some yy) => some (some (Pt.aff x yy))) = some (some (Pt.aff x cand))
  unfold elem_sqrt
  rw [hsqrt]

theorem testBit_zero_iff (n : Nat) : n.testBit 0 = decide (n % 2 = 1) := by
  rw [Nat.testBit_to_div_mod]
  norm_num

/-- Claim C8 (corrected): on a curve whose field modulus is an odd prime
`p = 3 mod 4` that is *below 2^64* (`sqrt_mont`'s dispatch converts the
modulus with ruint's panicking `to::<u64>()`), with reduced Montgomery
parameters and `p < 2^bits <= 2^w`, the compressed encoding of every
affine on-curve point decodes back to exactly that point. -/
theorem C8_compressed_roundtrip (c : Curve) (fuel x y : Nat) (hprime : c.p.Prime)
    (hp4 : c.p % 4 = 3) (hp64 : c.p < 2 ^ 64) (hpb : c.p < 2 ^ c.bits) (hbw : c.bits ≤ c.w)
    (hA : c.a_monty < c.p) (hB : c.b_monty < c.p)
    (hx : x < c.p) (hy : y < c.p) (hcurve : on_curve_eq c x y = true) :
    ∃ bs, encode_point c true (Pt.aff x y) = some bs ∧
      decode_point c fuel bs = some (Except.ok (Pt.aff x y, [])) := by
  have hp2 : c.p % 2 = 1 := by omega
  have hp1 : 1 < c.p := hprime.one_lt
  have hp0 : 0 < c.p := by omega
  have hpw : c.p < 2 ^ c.w :=
    lt_of_lt_of_le hpb (Nat.pow_le_pow_right (by norm_num) hbw)
  haveI : Fact c.p.Prime := ⟨hprime⟩
  have hunit := r_isUnit c.w c.p hp2
  set xv := to_uint c.w c.p x with hdefxv
  set yv := to_uint c.w c.p y with hdefyv
  have hxv_lt : xv < c.p := to_uint_lt c.w c.p x hp2 hp1 hpw hx
  have hyv_lt : yv < c.p := to_uint_lt c.w c.p y hp2 hp1 hpw hy
  have hxv_cast : (xv : ZMod c.p) = (x : ZMod c.p) * (rZ c.w c.p)⁻¹ :=
    to_uint_cast c.w c.p x hp2
  have hyv_cast : (yv : ZMod c.p) = (y : ZMod c.p) * (rZ c.w c.p)⁻¹ :=
    to_uint_cast c.w c.p y hp2
  -- the encoding
  have henc_field : encode_field c.bits c.w c.p x
      = some (be_bytes (byte_len c.p) xv) :=
    encode_field_eq c.bits c.w c.p x hp2 hp1 hpw hpb hx
  set tag := (if yv.testBit 0 then 2 else 3) with hdeftag
  have henc : encode_point c true (Pt.aff x y)
      = some (tag :: be_bytes (byte_len c.p) xv) := by
    show (do
      let even := (to_uint c.w c.p y).testBit 0
      let xs ← encode_field c.bits c.w c.p x
      pure ((if even then 2 else 3) :: xs) : Option (List Nat)) = _
    rw [← hdefyv, henc_field]
    rfl
  refine ⟨tag :: be_bytes (byte_len c.p) xv, henc, ?_⟩
  -- the decoding
  have htag0 : ¬ tag = 0 := by
    rw [hdeftag]
    split <;> omega
  have htag23 : tag = 2 ∨ tag = 3 := by
    rw [hdeftag]
    split
    · exact Or.inl rfl
    · exact Or.inr rfl
  have hlenb : (be_bytes (byte_len c.p) xv).length = byte_len c.p := be_bytes_length _ _
  have hxv_small : xv < 2 ^ (8 * byte_len c.p) := by
    have := (byte_len_le_iff c.p (byte_len c.p)).mp le_rfl
    omega
  have hvalbe : val_be (List.take (byte_len c.p) (be_bytes (byte_len c.p) xv)) = xv := by
    rw [List.take_of_length_le (by omega)]
    exact val_be_be_bytes_of_lt _ _ (by rw [pow256_eq]; exact hxv_small)
  have hdec_field : decode_field c.bits c.w c.p (be_bytes (byte_len c.p) xv)
      = some (Except.ok (mul_redc c.w c.p (xv % c.p) (mont_r2 c.w c.p), [])) := by
    rw [decode_field_eq c.bits c.w c.p _ hp0 (by omega) hpb
      (by rw [hvalbe]; omega)]
    rw [hvalbe, List.drop_eq_nil_of_le (by omega)]
  have hxmod : xv % c.p = xv := Nat.mod_eq_of_lt hxv_lt
  have hback : mul_redc c.w c.p (xv % c.p) (mont_r2 c.w c.p) = x := by
    rw [hxmod]
    have hr2lt : mont_r2 c.w c.p < c.p := Nat.mod_lt _ hp0
    apply cast_inj_of_lt c.p _ _
      (mul_redc_lt c.w c.p _ _ hp2 hpw hxv_lt hr2lt) hx
    rw [from_uint_cast c.w c.p xv hp2 hxv_lt, hxv_cast]
    rw [mul_assoc, ZMod.inv_mul_of_unit _ hunit, mul_one]
  obtain ⟨cand, hfrx, hclt, hccast⟩ :=
    from_x_round c x y hp4 hprime hpw hp64 hA hB hx hy hcurve
  set cv := to_uint c.w c.p cand with hdefcv
  have hcv_lt : cv < c.p := to_uint_lt c.w c.p cand hp2 hp1 hpw hclt
  have hcv_cast : (cv : ZMod c.p)
      = ((y : ZMod c.p) * (rZ c.w c.p)⁻¹) ^ ((c.p + 1) / 2) := by
    rw [hdefcv, to_uint_cast c.w c.p cand hp2, hccast]
    rw [mul_comm (rZ c.w c.p) _, mul_assoc, ZMod.mul_inv_of_unit _ hunit, mul_one]
  have hsq_eq : (cv : ZMod c.p) ^ 2 = (yv : ZMod c.p) ^ 2 := by
    rw [hcv_cast, hyv_cast, ← pow_mul]
    have hm2 : (c.p + 1) / 2 * 2 = c.p + 1 := by omega
    rw [hm2, pow_succ, ZMod.pow_card, sq]
  have hpm : (cv : ZMod c.p) = (yv : ZMod c.p) ∨ (cv : ZMod c.p) = -(yv : ZMod c.p) := by
    have hfac : ((cv : ZMod c.p) - yv) * ((cv : ZMod c.p) + yv) = 0 := by
      have : (cv : ZMod c.p) ^ 2 - (yv : ZMod c.p) ^ 2 = 0 := by
        rw [hsq_eq]
        ring
      calc ((cv : ZMod c.p) - yv) * ((cv : ZMod c.p) + yv)
          = (cv : ZMod c.p) ^ 2 - (yv : ZMod c.p) ^ 2 := by ring
        _ = 0 := this
    rcases mul_eq_zero.mp hfac with h | h
    · left
      linear_combination h
    · right
      linear_combination h
  -- assemble the decode
  show decode_point c fuel (tag :: be_bytes (byte_len c.p) xv) = _
  simp only [decode_point]
  rw [if_neg htag0, if_pos htag23]
  simp only [hdec_field, hback, hfrx]
  -- now the parity selection
  rw [← hdefcv]
  by_cases hsame : (cv : ZMod c.p) = (yv : ZMod c.p)
  · have hcv_eq : cv = yv := cast_inj_of_lt c.p cv yv hcv_lt hyv_lt hsame
    have hcand_eq : cand = y := by
      apply cast_inj_of_lt c.p cand y hclt hy
      have h1 : (cand : ZMod c.p) = rZ c.w c.p * (cv : ZMod c.p) := by
        rw [hccast, hcv_cast]
      rw [h1, hcv_eq, hyv_cast]
      calc rZ c.w c.p * ((y : ZMod c.p) * (rZ c.w c.p)⁻¹)
          = (y : ZMod c.p) * (rZ c.w c.p * (rZ c.w c.p)⁻¹) := by ring
        _ = (y : ZMod c.p) := by rw [ZMod.mul_inv_of_unit _ hunit, mul_one]
    have hcond : (tag = 2) = (cv.testBit 0 = true) := by
      rw [hcv_eq, hdeftag]
      by_cases hb2 : yv.testBit 0
      · rw [if_pos hb2]
        simp [hb2]
      · rw [if_neg hb2]
        simp [hb2]
    rw [if_pos hcond, hcand_eq]
  · have hneg : (cv : ZMod c.p) = -(yv : ZMod c.p) := by tauto
    have hyvZ_ne : (yv : ZMod c.p) ≠ 0 := by
      intro h0
      apply hsame
      rw [hneg, h0, neg_zero]
    have hyv_ne : yv ≠ 0 := by
      intro h0
      apply hyvZ_ne
      rw [h0]
      norm_num
    have hcv_val : cv = c.p - yv := by
      apply cast_inj_of_lt c.p cv (c.p - yv) hcv_lt (by omega)
      rw [hneg, Nat.cast_sub (le_of_lt hyv_lt), ZMod.natCast_self]
      ring
    have hparity : cv % 2 ≠ yv % 2 := by
      rw [hcv_val]
      omega
    have hcond : ¬ ((tag = 2) = (cv.testBit 0 = true)) := by
      rw [hdeftag, testBit_zero_iff, testBit_zero_iff]
      by_cases hb2 : yv % 2 = 1
      · rw [if_pos (by simp [hb2])]
        simp only [decide_eq_true_eq]
        intro hcontra
        have : cv % 2 = 1 := by
          rw [← hcontra]
          trivial
        omega
      · rw [if_neg (by
          simp only [decide_eq_true_eq]
          exact hb2)]
        simp only [decide_eq_true_eq]
        intro hcontra
        have h32 : (3 : Nat) = 2 ↔ cv % 2 = 1 := by rw [hcontra]
        have : ¬ (3 : Nat) = 2 := by omega
        have hcv2 : ¬ cv % 2 = 1 := fun hh => this (h32.mpr hh)
        omega
    rw [if_neg hcond]
    have hnegpt : neg_pt c (Pt.aff x cand) = Pt.aff x y := by
      have hcand_ne : cand ≠ 0 := by
        intro h0
        apply hyvZ_ne
        have : (cand : ZMod c.p) = 0 := by rw [h0]; norm_num
        rw [hccast] at this
        have h2 : ((y : ZMod c.p) * (rZ c.w c.p)⁻¹) ^ ((c.p + 1) / 2) = 0 := by
          have := hunit.mul_left_cancel (a := rZ c.w c.p)
            (b := ((y : ZMod c.p) * (rZ c.w c.p)⁻¹) ^ ((c.p + 1) / 2)) (c := 0)
            (by rw [mul_zero]; exact this)
          exact this
        have h3 : (cv : ZMod c.p) = 0 := by rw [hcv_cast]; exact h2
        rw [hneg] at h3
        have h4 : (yv : ZMod c.p) = 0 := by linear_combination -h3
        exact absurd h4 hyvZ_ne
      have hsub : sub_mod c.w c.p 0 cand = c.p - cand := by
        rw [sub_mod_eq c.w c.p 0 cand hpw (by omega) hclt]
        rw [Nat.zero_add, Nat.mod_eq_of_lt (by omega)]
      have hfin : c.p - cand = y := by
        apply cast_inj_of_lt c.p _ _ (by omega) hy
        rw [Nat.cast_sub (le_of_lt hclt), ZMod.natCast_self]
        have h1 : (cand : ZMod c.p) = rZ c.w c.p * (cv : ZMod c.p) := by
          rw [hccast, hcv_cast]
        rw [h1, hneg, hyv_cast]
        calc (0 : ZMod c.p) - rZ c.w c.p * -((y : ZMod c.p) * (rZ c.w c.p)⁻¹)
            = (y : ZMod c.p) * (rZ c.w c.p * (rZ c.w c.p)⁻¹) := by ring
          _ = (y : ZMod c.p) := by rw [ZMod.mul_inv_of_unit _ hunit, mul_one]
      show Pt.aff x (sub_mod c.w c.p 0 cand) = Pt.aff x y
      rw [hsub, hfin]
    rw [hnegpt]

/-! ### PSS: the implementation as a pre-hashed-operand verifier -/

/-- Claim C3 (corrected): `verify_pss` consumes a pre-hashed operand —
its `mHash` is the low-order `hash_len` bytes of the message operand's
encoding, not a digest computed inside.  It therefore agrees with the
RFC-8017-strict pipeline `verify_pss_spec` exactly when those trailing
bytes are the digest `Hash(m)` of the raw message. -/
theorem C3_pss_prehashed_operand (bits w fuel p e : Nat)
    (hashA hashM : List Nat → List Nat) (saltLen trailer msgM sigM : Nat)
    (m : List Nat)
    (h : (be_bytes ((bits + 7) / 8) (to_uint w p msgM)).drop
        ((be_bytes ((bits + 7) / 8) (to_uint w p msgM)).length - (hashA []).length)
        = hashA m) :
    verify_pss bits w fuel p e hashA hashM saltLen trailer msgM sigM
      = verify_pss_spec bits w fuel p e hashA hashM saltLen trailer m sigM := by
  unfold verify_pss verify_pss_spec
  simp only [h]

/-! ## The claim theorems -/

/-- Claim C1 (code bug): the compressed-tag parity is inverted.  On the
valid curve `c31` the point `(0, 30)` (Montgomery y-form 15) has even
y-coordinate 30, yet `encode` emits tag `0x03`; and decoding tag `0x02`
returns the point with odd y-coordinate 1 (Montgomery form 16). -/
theorem C1_compressed_tag_parity :
    curve_new 64 64 1 31 0 1 0 1 3 1 = some (Except.ok c31) ∧
    on_curve_eq c31 0 15 = true ∧
    to_uint 64 31 15 = 30 ∧
    encode_point c31 true (Pt.aff 0 15) = some [3, 0] ∧
    decode_point c31 1 [2, 0] = some (Except.ok (Pt.aff 0 16, [])) ∧
    to_uint 64 31 16 = 1 := by
  decide

/-- Claim C2 (code bug): when the computed ECDSA point `X = [u1]G + [u2]Q`
is the point at infinity, `verify` crashes (`x_of(&q).unwrap()` on `None`,
modelled as `none`) instead of returning an error result. -/
theorem C2_ecdsa_infinity_crash :
    curve_new 64 64 1 31 0 1 0 1 3 1 = some (Except.ok c31) ∧
    ecdsa_point c31 1 (generator c31) 2 1 = some Pt.inf ∧
    ecdsa_verify c31 1 (generator c31) 2 1 1 = none := by
  decide

/-- Witness for C3: with the 24-bit modulus `0xFFFFFF`, exponent 1,
message operand of value `0x010005` and a matching signature, the
hypothesis holds for the raw message `[5]` and the theorem applies. -/
theorem C3_pss_prehashed_operand_witness :
    (be_bytes ((24 + 7) / 8) (to_uint 64 16777215 327936)).drop
        ((be_bytes ((24 + 7) / 8) (to_uint 64 16777215 327936)).length
          - (sum_hash []).length) = sum_hash [5] ∧
    verify_pss 24 64 3 16777215 1 sum_hash sum_hash 0 1 327936 12321797
      = verify_pss_spec 24 64 3 16777215 1 sum_hash sum_hash 0 1 [5] 12321797 :=
  ⟨by decide,
    C3_pss_prehashed_operand 24 64 3 16777215 1 sum_hash sum_hash 0 1 327936
      12321797 [5] (by decide)⟩

/-- Counterexample for C3: the operand of value `0x010005` read as raw
message bytes `[1, 0, 5]` hashes to `[6]`, so the RFC-strict pipeline
rejects, while the implementation accepts the same operand (its trailing
byte `5` plays the role of `mHash`): verification does not hash the
message itself. -/
theorem C3_pss_hash_inside_refuted :
    from_uint 64 16777215 65541 = some 327936 ∧
    be_bytes 3 (to_uint 64 16777215 327936) = [1, 0, 5] ∧
    sum_hash [1, 0, 5] = [6] ∧
    verify_pss 24 64 3 16777215 1 sum_hash sum_hash 0 1 327936 12321797
      = some (Except.ok ()) ∧
    verify_pss_spec 24 64 3 16777215 1 sum_hash sum_hash 0 1 [1, 0, 5] 12321797
      = some (Except.error "PSS verification hash check failed") := by
  refine ⟨by decide, by decide, by decide, by decide, by rfl⟩

/-- Claim C4 (code bug): for the prime modulus 13 (which is 5 mod 8) and
the Montgomery-form quadratic residue 1 (whose Montgomery value is
`R mod 13`, a square since `1 = 1 * 1`), `sqrt_mont` hits the
`unimplemented!` arm (the dispatch tests `modulus % 4 == 1`, for which no
arm exists) and crashes instead of using the `p = 5 mod 8` exponents. -/
theorem C4_sqrt_five_mod_eight_unsupported :
    Nat.Prime 13 ∧ 13 % 8 = 5 ∧
    square_redc 64 13 (mont_r 64 13) = mont_r 64 13 ∧
    sqrt_mont 64 (mont_r 64 13) 13 (mont_r 64 13) = none := by
  refine ⟨by norm_num, by decide, by decide, by decide⟩

/-- Claim C5 (code bug): the two-torsion point `(6, 0)` of `c31`
(Montgomery x-form 3) is its own negative, so `(6,0) + (6,0)` must be the
point at infinity; the implementation instead reaches the doubling
formula and crashes dividing by `2 * 0 = 0` (the `.unwrap()` on a failed
inversion, modelled as `none`). -/
theorem C5_two_torsion_doubling_crash :
    curve_new 64 64 1 31 0 1 0 1 3 1 = some (Except.ok c31) ∧
    on_curve_eq c31 3 0 = true ∧
    neg_pt c31 (Pt.aff 3 0) = Pt.aff 3 0 ∧
    pt_add c31 1 (Pt.aff 3 0) (Pt.aff 3 0) = none := by
  decide

/-- Claim C6 (code bug): `random(rng, max)` accepts `value <= max`
inclusively, and `RingRefExt::random` passes `max = modulus`, so a draw
whose top bits are `101` returns the Montgomery value 5 for the ring with
modulus 5, violating the `value < modulus` invariant. -/
theorem C6_random_reaches_modulus :
    ring_random 64 5 [11529215046068469760] = some 5 := by
  decide

/-- Counterexample for C7: `ModPGroup::new` accepts `generator = 1`
(`1 < 29` and `1^3 = 1`), contradicting the claim that construction
rejects every generator at most 1. -/
theorem C7_generator_one_accepted :
    modp_new 64 64 29 1 3 = some (Except.ok ⟨64, 64, 29, 3, 24⟩) := by
  decide

/-- Witness for C7: the characterisation applies at modulus 29,
generator 1, order 3. -/
theorem C7_modp_new_ok_iff_witness :
    (∃ g, modp_new 64 64 29 1 3 = some (Except.ok g)) ↔
      (1 < 29 ∧ 1 ^ 3 % 29 = 1 % 29) :=
  C7_modp_new_ok_iff 64 64 29 1 3 (by decide) (by decide) (by decide) (by decide)

/-- Counterexample for C8, in two parts.  First, on the valid curve
`c29` (29 is a prime that is 1 mod 4) the on-curve point `(0, 1)`
(Montgomery form `(0, 24)`) compresses to `[0x02, 0x00]`, but decoding
crashes: decompression calls `sqrt` and hits the unsupported
`p = 1 mod 4` arm.  Second, even a modulus that *is* 3 mod 4 panics in
`sqrt_mont` as soon as it reaches 2^64, because the dispatch converts it
with ruint's panicking `to::<u64>()` — so decompression fails on every
multi-limb curve and the original unrestricted round-trip claim is false
in both directions. -/
theorem C8_roundtrip_fails_one_mod_four :
    (curve_new 64 64 1 29 0 1 0 1 3 1 = some (Except.ok c29) ∧
     Nat.Prime 29 ∧ 29 % 4 = 1 ∧
     on_curve_eq c29 0 24 = true ∧
     encode_point c29 true (Pt.aff 0 24) = some [2, 0] ∧
     decode_point c29 1 [2, 0] = none) ∧
    ((2 ^ 64 + 3) % 4 = 3 ∧
     sqrt_mont 128 1 (2 ^ 64 + 3) (mont_r 128 (2 ^ 64 + 3)) = none) := by
  refine ⟨⟨by decide, by norm_num, by decide, by decide, by decide, by decide⟩,
    by decide, by decide⟩

/-- Witness for C8: the round-trip theorem applies on `c31` (31 is 3 mod
4) at the generator `(0, 1)`, Montgomery form `(0, 16)`. -/
theorem C8_compressed_roundtrip_witness :
    ∃ bs, encode_point c31 true (Pt.aff 0 16) = some bs ∧
      decode_point c31 1 bs = some (Except.ok (Pt.aff 0 16, [])) :=
  C8_compressed_roundtrip c31 1 0 16 (show Nat.Prime 31 by norm_num) (by decide) (by decide)
    (by decide) (by decide) (by decide) (by decide) (by decide) (by decide) (by decide)

/-- Claim C9 (code bug): the specialised `encoded_size` disagrees with
the default (encode-and-measure) definition: it crashes at 0
(`ilog2` of zero) where `encode` writes one byte, and undercounts by one
for 128..=255 and for 256..=511. -/
theorem C9_ber_encoded_size_mismatch :
    encoded_size_ber 0 = none ∧
    (encode_ber 0).length = 1 ∧
    encoded_size_ber 128 = some 1 ∧
    (encode_ber 128).length = 2 ∧
    encoded_size_ber 256 = some 2 ∧
    (encode_ber 256).length = 3 := by
  decide

/-- Witness for C10: for modulus 5 and the out-of-range buffer `[7]`
(one byte, value 7 with `5 <= 7`), decoding succeeds with the element of
residue `7 mod 5 = 2`. -/
theorem C10_decode_field_reduces_witness :
    decode_field 64 64 5 [7]
        = some (Except.ok (mul_redc 64 5 (val_be [7] % 5) (mont_r2 64 5), [])) ∧
      to_uint 64 5 (mul_redc 64 5 (val_be [7] % 5) (mont_r2 64 5)) = val_be [7] % 5 :=
  C10_decode_field_reduces 64 64 5 [7] (by decide) (by decide) (by decide)
    (by decide) (by decide) (by decide) (by decide)
